import Mathlib

/-!
pfact: a pipeline of trial-division filter processes.

A verification development for `src/pfact.c`.  The program factors a number `n`
with a chain of processes: every stage owns one trial divisor `m_next`, checks
whether it divides `n`, and forwards the candidates that are not multiples of it
to the stage it spawns.

The embedding:

* `unsigned int` values are `Nat`; products are reduced modulo `2^32` (`umul`),
  the increment of the root loop likewise (`uinc`).
* A pipe is the list of the values written to it, oldest first.  `read_int`
  yields `0` both for a written `0` and at end of file, and every reading loop
  of the program stops at the first `0`, so the loops below stop at `[]` and at
  a head `0` alike.
* A process is described by what it and its descendants print on standard
  output, by how it ends (`exit(code)` or a `return` from `process_range`), by
  the number of stage processes created, and by whether a stage fell out of its
  read loop without a candidate.
* `sqrt(n)` is a `double`.  For `n < 2^32` both `n` and `factor2` are exactly
  representable, `sqrt` is correctly rounded and the distance of `sqrt n` from
  an integer is either `0` or more than `2^-18`, far above the rounding error;
  hence `factor2 < n_sqrt` holds exactly when `factor2 * factor2 < n`, which is
  the form used here (`below_sqrt`).
* The recursion of `process_range` through `fork` is bounded by a fuel
  argument; `none` means the fuel ran out.  The theorems show that the fuel
  supplied by `pipeline` always suffices.
* `pipe`, `fork`, `waitpid`, `read`, `write` and `close` are taken to succeed
  in `process_range`; `write` may fail with `EPIPE`, which only stops a writer
  whose reader is gone.  What the first lines of `process_range` do when `pipe`
  or `fork` fails is described by `process_range_start`.
* A writing loop is left by `break` when `write_int` returns `-1`
  (`root_writes`, `forward_writes`).  A write fails only once the reader has
  closed the pipe, so a stage reads a prefix of the stream that its writer
  produces when no write fails (`root_loop`, `forward`); `process_range` hands
  this stream to the stage.  What is written into the pipes of a run depends on
  the moment at which the writes begin to fail: `run_trace` takes the number of
  successful writes of every pipe as an argument, and `Admissible` bounds it by
  the values read from the pipe plus the capacity of a pipe.  On
  `n = UINT_MAX` the condition `i <= n` of the root loop cannot fail; there the
  stage with divisor `5` leaves without reading, and the bound shows that the
  controller is stopped by a failed write long before `i` wraps around.
* The text of a printed line is given by `render`; the conversion `%d` is
  applied to `unsigned int` arguments and reads their 32 bits as a signed
  `int` (`print_d`).
* The stages of a run, with their arguments and pipes, are listed by
  `stage_trace`, which follows the recursion of `process_range`; the products a
  stage compares with `n` are listed by `stage_comparisons`.
-/

namespace Pfact

/-- The constant `UINT_MAX` of `limits.h` for a 32-bit `unsigned int`. -/
def UINT_MAX : Nat := 4294967295

/-- Multiplication of two `unsigned int` values. -/
def umul (a b : Nat) : Nat := (a * b) % 4294967296

/-- The statement `i++` on an `unsigned int`. -/
def uinc (i : Nat) : Nat := (i + 1) % 4294967296

/-- The status `WEXITSTATUS` extracts after `exit(code)`: the low eight bits. -/
def WEXITSTATUS (code : Nat) : Nat := code % 256

/-- The comparison `factor2 < n_sqrt` with `n_sqrt = sqrt(n)` (line 160). -/
def below_sqrt (factor2 n : Nat) : Bool := decide (factor2 * factor2 < n)

/-- A line on standard output, with the arguments handed to `printf`. -/
inductive Line where
  /-- Text `"%d is prime\n"` with argument `n`. -/
  | prime (n : Nat)
  /-- Text `"%d %d %d\n"` with arguments `n`, `f1`, `f2`. -/
  | factors (n f1 f2 : Nat)
  /-- Text `"%d is not the product of two primes\n"` with argument `n`. -/
  | notProduct (n : Nat)
  /-- Text `"Number of filters = %d\n"` with argument `count`. -/
  | filters (count : Nat)
  deriving DecidableEq

/-- How a process leaves `process_range`. -/
inductive Ending where
  /-- The process called `exit(code)`. -/
  | exited (code : Nat)
  /-- The call returned `value` to its caller. -/
  | returned (value : Nat)
  deriving DecidableEq

/-- What a process and its descendants did. -/
structure Outcome where
  /-- Lines printed on standard output, in order. -/
  out : List Line
  /-- How the process ended. -/
  ending : Ending
  /-- Number of stage processes created by the process and its descendants. -/
  stages : Nat
  /-- Whether some stage left its read loop by the `return 0` of line 194. -/
  fell_through : Bool
  deriving DecidableEq

/-- How a writing loop is left. -/
inductive LoopEnd where
  /-- The loop condition failed: the loop ran to its end. -/
  | completed
  /-- A call of `write_int` returned `-1` and the loop was left by `break`. -/
  | write_failed
  /-- The loop is still running after the iterations considered. -/
  | running
  deriving DecidableEq

/-- The root loop of lines 89-93,
`for (i = ...; i <= n; i++) if (write_int(fd[1], i) == -1) break;`,
run for at most `fuel` iterations from the current `i`: the values written
into the pipe and how the loop was left.  The argument `ok` tells how the
calls of `write_int` end: with `some k` the next `k` calls succeed and the one
after them returns `-1` (the reader has closed the pipe), with `none` every
call succeeds. -/
def root_writes (n : Nat) : Nat → Nat → Option Nat → List Nat × LoopEnd
  | 0, _, _ => ([], .running)
  | fuel + 1, i, ok =>
    if i ≤ n then
      match ok with
      | some 0 => ([], .write_failed)
      | some (k + 1) =>
        let r := root_writes n fuel (uinc i) (some k)
        (i :: r.1, r.2)
      | none =>
        let r := root_writes n fuel (uinc i) none
        (i :: r.1, r.2)
    else ([], .completed)

/-- The root loop when no call of `write_int` fails: the values written within
`fuel` iterations and whether the loop ran to its end within them.  This is
the stream offered to the reader of the pipe: a write fails only once the
reader has closed the pipe, so what the reader reads is a prefix of it. -/
def root_loop (n fuel i : Nat) : List Nat × Bool :=
  ((root_writes n fuel i none).1, decide ((root_writes n fuel i none).2 = .completed))

/-- The forwarding loop of lines 75-82,
`while ((i = read_int(fd_in))) if (i % m != 0) if (write_int(fd[1], i) == -1) break;`:
the values written into the new pipe, for the content `fd_in` of the old one.
The loop ends at the first `0` it reads or at the first call of `write_int`
that returns `-1`; `ok` tells how these calls end, as in `root_writes`. -/
def forward_writes (m : Nat) : Option Nat → List Nat → List Nat
  | _, [] => []
  | ok, i :: rest =>
    if i = 0 then []
    else if i % m ≠ 0 then
      match ok with
      | some 0 => []
      | some (k + 1) => i :: forward_writes m (some k) rest
      | none => i :: forward_writes m none rest
    else forward_writes m ok rest

/-- The number of values the forwarding loop of lines 75-82 takes out of
`fd_in`: every value up to and including a `0` or the value whose write
fails.  A call of `read_int` at the end of the file takes no value. -/
def forward_reads (m : Nat) : Option Nat → List Nat → Nat
  | _, [] => 0
  | ok, i :: rest =>
    if i = 0 then 1
    else if i % m ≠ 0 then
      match ok with
      | some 0 => 1
      | some (k + 1) => 1 + forward_reads m (some k) rest
      | none => 1 + forward_reads m none rest
    else 1 + forward_reads m ok rest

/-- The forwarding loop when no call of `write_int` fails: the values of
`fd_in`, up to its first `0`, that are not multiples of `m`.  This is the
stream offered to the reader of the new pipe. -/
def forward (m : Nat) (inp : List Nat) : List Nat :=
  forward_writes m none inp

/-- The result of the divisor check of lines 123-151: a classification line
(followed by `exit(1)`) or the value of `factor` afterwards. -/
def divisor_check (n m_next factor : Nat) : Line ⊕ Nat :=
  if n % m_next = 0 then
    if factor ≠ 0 then
      if umul factor m_next = n then .inl (.factors n factor m_next)
      else .inl (.notProduct n)
    else if umul m_next m_next = n then .inl (.factors n m_next m_next)
    else if n = m_next then .inl (.prime n)
    else .inr m_next
  else .inr factor

/-- The loop head of lines 157-158: read up to the first value that is not a
multiple of `m_next`; the result is that value and the rest of the pipe, or
`none` when the pipe is exhausted first. -/
def next_candidate (m_next : Nat) : List Nat → Option (Nat × List Nat)
  | [] => none
  | v :: rest =>
    if v = 0 then none
    else if v % m_next ≠ 0 then some (v, rest)
    else next_candidate m_next rest

/-- The `do ... while` loop of lines 168-174, entered with the current
`factor2` and the rest of the pipe: the value at which it breaks, if any. -/
def factor_search (n m_next factor : Nat) : Nat → List Nat → Option Nat
  | factor2, [] =>
    if factor2 % m_next ≠ 0 ∧ umul factor factor2 = n then some factor2 else none
  | factor2, v :: rest =>
    if factor2 % m_next ≠ 0 ∧ umul factor factor2 = n then some factor2
    else if v = 0 then none
    else factor_search n m_next factor v rest

/-- The child branch of `process_range` (lines 115-189 and the fall-through to
line 194) reading the pipe `fd0`; `spawn factor2 factor rest` stands for the
call `process_range(n, m_next, factor2, factor, fd[0])` of line 162. -/
def child_branch (n m_next factor : Nat) (fd0 : List Nat)
    (spawn : Nat → Nat → List Nat → Option Outcome) : Option Outcome :=
  match divisor_check n m_next factor with
  | .inl line => some ⟨[line], .exited 1, 0, false⟩
  | .inr factor =>
    match next_candidate m_next fd0 with
    | none => some ⟨[], .returned 0, 0, true⟩
    | some (factor2, rest) =>
      if below_sqrt factor2 n then spawn factor2 factor rest
      else if factor ≠ 0 then
        match factor_search n m_next factor factor2 rest with
        | some found => some ⟨[.factors n factor found], .exited 1, 0, false⟩
        | none => some ⟨[.notProduct n], .exited 1, 0, false⟩
      else if umul factor2 factor2 = n then some ⟨[.factors n factor2 factor2], .exited 1, 0, false⟩
      else some ⟨[.prime n], .exited 1, 0, false⟩

/-- The function `process_range(n, m, m_next, factor, fd_in)` as seen by the
calling process; `fd_in = none` stands for the descriptor `-1` of the root and
`some inp` for a pipe whose unread content is `inp`.

The new pipe receives the root range or the forwarded values (parent branch,
lines 71-94) and is read by the forked child (`child_branch`).  Of the root
range the first `n` written values are kept: they hold the whole range, or
reach a `0`, beyond which no reader gets.  A child that
returns from `process_range` continues in its caller: below `main` it prints
the filter line and leaves `main` with `0`, inside a stage it reaches
`exit(1)` of line 164.  After `waitpid` the parent returns the child status
(root, line 108) or exits with the status plus one (line 105). -/
def process_range (n : Nat) : Nat → Nat → Nat → Nat → Option (List Nat) → Option Outcome
  | 0, _, _, _, _ => none
  | fuel + 1, m, m_next, factor, fd_in =>
    let fd1 : List Nat :=
      match fd_in with
      | some inp => forward m inp
      | none => (root_loop n n (uinc m_next)).1
    match child_branch n m_next factor fd1
        (fun factor2 factor rest => process_range n fuel m_next factor2 factor (some rest)) with
    | none => none
    | some child =>
      let status : Nat :=
        match child.ending with
        | .exited code => WEXITSTATUS code
        | .returned _ => if fd_in.isSome then 1 else 0
      let out : List Line :=
        match child.ending, fd_in with
        | .returned value, none => child.out ++ [.filters value]
        | _, _ => child.out
      match fd_in with
      | some _ => some ⟨out, .exited (status + 1), child.stages + 1, child.fell_through⟩
      | none => some ⟨out, .returned status, child.stages + 1, child.fell_through⟩

/-- The call `process_range((unsigned int) n, -1, 2, 0, -1)` of line 219; the
fuel `n` bounds the depth of the chain, and `-1` as `unsigned int` is `UINT_MAX`. -/
def pipeline (n : Nat) : Option Outcome :=
  process_range n n UINT_MAX 2 0 none

/-- A message on the error stream. -/
inductive Diagnostic where
  /-- Text `"Usage:\n\tpfact n\n"`. -/
  | usage
  /-- Output of `perror("strtol")`. -/
  | strtol_range
  /-- Output of `perror("signal")`. -/
  | signal_failed
  deriving DecidableEq

/-- How `main` ends. -/
inductive MainResult where
  /-- Function `main` printed `msg` and called `exit(code)` before line 219. -/
  | aborted (msg : Diagnostic) (code : Nat)
  /-- Function `main` called `process_range`, whose run is `run`; the standard
  output of the whole program is `stdout` and the exit code of `main` is `code`. -/
  | completed (run : Outcome) (stdout : List Line) (code : Nat)
  deriving DecidableEq

/-- The function `main` (lines 197-222).  Its inputs are `argc`, the value
`parsed` that `strtol` returns for `argv[1]`, whether `errno` equals `ERANGE`
afterwards, and whether `signal(SIGPIPE, SIG_IGN)` succeeds.  The result is
`none` only when the fuel of `pipeline` runs out. -/
def main (argc : Nat) (parsed : Int) (erange signal_ok : Bool) : Option MainResult :=
  if argc ≠ 2 then some (.aborted .usage 1)
  else if erange then some (.aborted .strtol_range 1)
  else if parsed ≤ 1 ∨ parsed > UINT_MAX then some (.aborted .usage 1)
  else if !signal_ok then some (.aborted .signal_failed 1)
  else
    match pipeline (parsed.toNat % 4294967296) with
    | none => none
    | some run =>
      match run.ending with
      | .returned value => some (.completed run (run.out ++ [.filters value]) 0)
      | .exited code => some (.completed run run.out (WEXITSTATUS code))

/-- The conversion `%d` of `printf` applied to an `unsigned int` argument `v`:
the 32 bits of `v` are read as an `int` in two's complement, so a value of
`2^31` or more is printed as the negative number `v - 2^32`. -/
def print_d (v : Nat) : String :=
  if v < 2147483648 then Nat.repr v else "-" ++ Nat.repr (4294967296 - v)

/-- The text of a line on standard output, as `printf` produces it from the
format strings of lines 128-183 and 219. -/
def render : Line → String
  | .prime n => print_d n ++ " is prime\n"
  | .factors n f1 f2 => print_d n ++ " " ++ print_d f1 ++ " " ++ print_d f2 ++ "\n"
  | .notProduct n => print_d n ++ " is not the product of two primes\n"
  | .filters count => "Number of filters = " ++ print_d count ++ "\n"

/-- A message of `perror` in `process_range`. -/
inductive Report where
  /-- Output of `perror("pipe")`. -/
  | pipe
  /-- Output of `perror("fork")`. -/
  | fork
  deriving DecidableEq

/-- Where a process continues after the first lines of `process_range`. -/
inductive Entry where
  /-- Function `fork` returned `child_pid > 0`: the parent branch of line 68. -/
  | parent (child_pid : Int)
  /-- Function `fork` returned `0`: the child branch of line 115. -/
  | child
  /-- The process called `exit(code)`. -/
  | aborted (code : Nat)
  deriving DecidableEq

/-- Lines 60-68 and 190-193 of `process_range`, for the values `pipe_ret` and
`fork_ret` that `pipe(fd)` and `fork()` return: the messages printed and the
branch taken.  The call of `fork` does not depend on `pipe_ret`. -/
def process_range_start (pipe_ret fork_ret : Int) : List Report × Entry :=
  let reports : List Report := if pipe_ret < 0 then [.pipe] else []
  if fork_ret > 0 then (reports, .parent fork_ret)
  else if fork_ret = 0 then (reports, .child)
  else (reports ++ [.fork], .aborted 1)

/-- A stage process of a run: the arguments `m_next` and `factor` of the call
of `process_range` that forked it, and the content `fd` of the pipe it reads. -/
structure Stage where
  /-- The divisor of the stage. -/
  m_next : Nat
  /-- The value of `factor` on entry. -/
  factor : Nat
  /-- The content of the pipe the stage reads: the values its parent wrote. -/
  fd : List Nat
  deriving DecidableEq

/-- The content of the pipe created by `process_range(n, m, m_next, factor, fd_in)`
(parent branch, lines 71-94) when no write fails, as in `process_range`: the
stream offered to the forked stage. -/
def new_pipe (n m m_next : Nat) (fd_in : Option (List Nat)) : List Nat :=
  match fd_in with
  | some inp => forward m inp
  | none => (root_loop n n (uinc m_next)).1

/-- The stages created by `process_range(n, m, m_next, factor, fd_in)` and by
the calls below it, in the order of creation.  The recursion is that of
`process_range` and `child_branch`: a stage is followed by another one exactly
when its divisor check does not classify and its first candidate is below the
square root of `n`.  The pipe of a stage is given as `new_pipe`, the stream
offered to it; `run_trace` lists the stages with what is written when writes
fail. -/
def stage_trace (n : Nat) : Nat → Nat → Nat → Nat → Option (List Nat) → List Stage
  | 0, _, _, _, _ => []
  | fuel + 1, m, m_next, factor, fd_in =>
    ⟨m_next, factor, new_pipe n m m_next fd_in⟩ ::
      match divisor_check n m_next factor with
      | .inl _ => []
      | .inr factor =>
        match next_candidate m_next (new_pipe n m m_next fd_in) with
        | none => []
        | some (factor2, rest) =>
          if below_sqrt factor2 n then stage_trace n fuel m_next factor2 factor (some rest)
          else []

/-- The stages of the run of `pipeline n`. -/
def pipeline_trace (n : Nat) : List Stage :=
  stage_trace n n UINT_MAX 2 0 none

/-- The products `factor * factor2` that the loop of lines 168-174 compares with
`n`, in order: one for every scanned `factor2` that is not a multiple of
`m_next`, up to the one at which the loop breaks. -/
def search_comparisons (n m_next factor : Nat) : Nat → List Nat → List (Nat × Nat)
  | factor2, [] => if factor2 % m_next ≠ 0 then [(factor, factor2)] else []
  | factor2, v :: rest =>
    if factor2 % m_next ≠ 0 ∧ umul factor factor2 = n then [(factor, factor2)]
    else
      (if factor2 % m_next ≠ 0 then [(factor, factor2)] else []) ++
        (if v = 0 then [] else search_comparisons n m_next factor v rest)

/-- The products that a stage compares with `n` (lines 126, 137, 169 and 178),
as pairs of operands, in order. -/
def stage_comparisons (n : Nat) (s : Stage) : List (Nat × Nat) :=
  (if n % s.m_next = 0 then
      (if s.factor ≠ 0 then [(s.factor, s.m_next)] else [(s.m_next, s.m_next)])
    else []) ++
  match divisor_check n s.m_next s.factor with
  | .inl _ => []
  | .inr factor =>
    match next_candidate s.m_next s.fd with
    | none => []
    | some (factor2, rest) =>
      if below_sqrt factor2 n then []
      else if factor ≠ 0 then search_comparisons n s.m_next factor factor2 rest
      else [(factor2, factor2)]

/-- The number of values the loop head of lines 157-158 takes out of the pipe
until it stops: at the first value that is not a multiple of `m_next`, at a
`0`, or at the end of the file. -/
def candidate_reads (m_next : Nat) : List Nat → Nat
  | [] => 0
  | v :: rest =>
    if v = 0 then 1
    else if v % m_next ≠ 0 then 1
    else 1 + candidate_reads m_next rest

/-- The number of values the `do ... while` loop of lines 168-174 takes out of
the pipe after the current `factor2`. -/
def search_reads (n m_next factor : Nat) : Nat → List Nat → Nat
  | _, [] => 0
  | factor2, v :: rest =>
    if factor2 % m_next ≠ 0 ∧ umul factor factor2 = n then 0
    else if v = 0 then 1
    else 1 + search_reads n m_next factor v rest

/-- The content of the pipe created by `process_range(n, m, m_next, factor, fd_in)`
(parent branch, lines 71-94) when the calls of `write_int` end as `ok` tells. -/
def pipe_written (n m m_next : Nat) (fd_in : Option (List Nat)) (ok : Option Nat) :
    List Nat :=
  match fd_in with
  | some inp => forward_writes m ok inp
  | none => (root_writes n n (uinc m_next) ok).1

/-- The stages of a run with their pipes as written: `ok k` tells how the
writes into the pipe of stage number `k` end.  The recursion is that of
`stage_trace`; the stage reads what was written. -/
def run_trace (n : Nat) (ok : Nat → Option Nat) :
    Nat → Nat → Nat → Nat → Nat → Option (List Nat) → List Stage
  | 0, _, _, _, _, _ => []
  | fuel + 1, k, m, m_next, factor, fd_in =>
    ⟨m_next, factor, pipe_written n m m_next fd_in (ok k)⟩ ::
      match divisor_check n m_next factor with
      | .inl _ => []
      | .inr factor =>
        match next_candidate m_next (pipe_written n m m_next fd_in (ok k)) with
        | none => []
        | some (factor2, rest) =>
          if below_sqrt factor2 n then
            run_trace n ok fuel (k + 1) m_next factor2 factor (some rest)
          else []

/-- The stages of the run of `pipeline n` in which the writes end as `ok` tells. -/
def pipeline_run_trace (n : Nat) (ok : Nat → Option Nat) : List Stage :=
  run_trace n ok n 0 UINT_MAX 2 0 none

/-- The number of values the process of stage `s` takes out of its pipe before
it closes it: in the child branch (lines 157-174) and, after a spawn, in the
forwarding loop of the call of line 162, whose writes end as `ok_next` tells. -/
def stage_reads (n : Nat) (s : Stage) (ok_next : Option Nat) : Nat :=
  match divisor_check n s.m_next s.factor with
  | .inl _ => 0
  | .inr factor =>
    match next_candidate s.m_next s.fd with
    | none => candidate_reads s.m_next s.fd
    | some (factor2, rest) =>
      candidate_reads s.m_next s.fd +
        (if below_sqrt factor2 n then forward_reads s.m_next ok_next rest
         else if factor ≠ 0 then search_reads n s.m_next factor factor2 rest
         else 0)

/-- The write outcomes of a run on `UINT_MAX`: the stage with divisor `5` leaves
before anything is written to it, the stage before it is stopped at its sixth
write, the controller at its twenty-first. -/
def max_run : Nat → Option Nat
  | 0 => some 20
  | 1 => some 5
  | 2 => some 0
  | _ => none

/-! Notions used to state and prove the properties -/

/-- The values a reader obtains from a pipe before `read_int` yields `0`. -/
def readable (ch : List Nat) : List Nat := ch.takeWhile (fun v => decide (v ≠ 0))

/-- The content of the pipe read by the stage with divisor `d`: strictly
increasing, and exactly the values of `(d, n]` without a prime divisor below `d`. -/
def Sieved (n d : Nat) (vals : List Nat) : Prop :=
  vals.Pairwise (fun a b => a < b) ∧
    ∀ x, x ∈ vals ↔ (d < x ∧ x ≤ n ∧ ∀ q, q.Prime → q < d → ¬ q ∣ x)

/-- The prime `c` is the least prime above `d`. -/
def NextPrime (d c : Nat) : Prop :=
  c.Prime ∧ d < c ∧ ∀ q, q.Prime → d < q → c ≤ q

/-- The divisors that get a stage: `2`, and the primes below the square root of `n`. -/
def StageOK (n d : Nat) : Prop :=
  d.Prime ∧ (d = 2 ∨ d * d < n)

/-- The value of `factor` on entry to the stage with divisor `d`: unset while no
prime below `d` divides `n`, and otherwise the least prime factor of `n`. -/
def FactorInv (n d f : Nat) : Prop :=
  (f = 0 ∧ ∀ q, q.Prime → q < d → ¬ q ∣ n) ∨
    (f = n.minFac ∧ f < d ∧ f * f < n ∧ ∀ q, q.Prime → q < d → q ∣ n → q = f)

/-- The classification of `n` in terms of its prime factorisation: the line a
correct run has to print. -/
def classify (n : Nat) : Line :=
  if n.Prime then .prime n
  else if (n / n.minFac).Prime then .factors n n.minFac (n / n.minFac)
  else .notProduct n

/-- The divisor `T` of the stage that classifies `n`: a stage divisor such that
no earlier stage meets a second prime factor, and at which either a second
prime factor is met or the next prime is not below the square root of `n`. -/
def Terminal (n T : Nat) : Prop :=
  StageOK n T ∧ (∀ q, q.Prime → q < T → q ∣ n → q = n.minFac) ∧
    ((T ∣ n ∧ n.minFac < T) ∨ ∀ c, c.Prime → T < c → n ≤ c * c)

/-- The number of primes `q` with `d ≤ q ≤ T`. -/
def stagesFrom (d T : Nat) : Nat :=
  Nat.count Nat.Prime (T + 1) - Nat.count Nat.Prime d

/-- Trial division from `d` upwards with at most `fuel` trials: `false` when a
`k` with `d ≤ k` and `k * k ≤ n` divides `n`. -/
def trial (n : Nat) : Nat → Nat → Bool
  | 0, _ => true
  | fuel + 1, d =>
    if n < d * d then true
    else if n % d = 0 then false
    else trial n fuel (d + 1)

/-- Primality by trial division, for evaluating prime counts. -/
def primeB (n : Nat) : Bool := decide (2 ≤ n) && trial n n 2

/-- The number of `k` below the first argument with `primeB k`, added to `acc`. -/
def countB : Nat → Nat → Nat
  | 0, acc => acc
  | k + 1, acc => countB k (if primeB k then acc + 1 else acc)

/-- The number of primes strictly below the square root of `n`. -/
def primes_below_sqrt (n : Nat) : Nat :=
  Nat.count (fun q => q.Prime ∧ q * q < n) n

/-- The write outcomes `ok` fit pipes that hold at most `cap` values.  A pipe is
a bounded buffer: a write waits while the pipe is full and fails once the
reader has closed it, so the number of values written into the pipe of a stage
is at most the number of values the stage takes out of it (`stage_reads`) plus
`cap`.  A pipe of 64 KiB holds 16384 values; the theorems take
`cap ≤ 2 ^ 29`, pipes of at most 2 GiB. -/
def Admissible (n cap : Nat) (ok : Nat → Option Nat) : Prop :=
  ∀ k s, (pipeline_run_trace n ok)[k]? = some s →
    s.fd.length ≤ stage_reads n s (ok (k + 1)) + cap

/-- The list `vals` is an initial segment of the content `Sieved n d` describes. -/
def PrefixSieved (n d : Nat) (vals : List Nat) : Prop :=
  ∃ full, Sieved n d full ∧ vals <+: full

/-! Pipes and loops -/

theorem root_loop_zero (n i : Nat) : root_loop n 0 i = ([], false) := rfl

theorem root_loop_succ (n fuel i : Nat) :
    root_loop n (fuel + 1) i =
      if i ≤ n then (i :: (root_loop n fuel (uinc i)).1, (root_loop n fuel (uinc i)).2)
      else ([], true) := by
  unfold root_loop
  by_cases h : i ≤ n
  · simp [root_writes, h]
  · simp [root_writes, h]

theorem forward_nil (m : Nat) : forward m [] = [] := rfl

theorem forward_cons (m i : Nat) (rest : List Nat) :
    forward m (i :: rest) =
      if i = 0 then [] else if i % m ≠ 0 then i :: forward m rest else forward m rest := by
  unfold forward
  by_cases h0 : i = 0
  · simp [forward_writes, h0]
  · by_cases hm : i % m = 0
    · simp [forward_writes, h0, hm]
    · simp [forward_writes, h0, hm]

theorem readable_nil : readable [] = [] := rfl

theorem readable_cons_zero (rest : List Nat) : readable (0 :: rest) = [] := by
  simp [readable]

theorem readable_cons_pos {v : Nat} (hv : v ≠ 0) (rest : List Nat) :
    readable (v :: rest) = v :: readable rest := by
  simp [readable, List.takeWhile_cons, hv]

theorem forward_eq_filter (m : Nat) (ch : List Nat) :
    forward m ch = (readable ch).filter (fun i => decide (i % m ≠ 0)) := by
  induction ch with
  | nil => rfl
  | cons v rest ih =>
    by_cases hv : v = 0
    · subst hv; simp [forward_cons, readable_cons_zero]
    · by_cases hm : v % m = 0
      · simp [forward_cons, readable_cons_pos hv, hv, hm, ih]
      · simp [forward_cons, readable_cons_pos hv, hv, hm, ih]

theorem zero_not_mem_readable (ch : List Nat) : 0 ∉ readable ch := by
  intro h
  have := List.mem_takeWhile_imp h
  simp at this

theorem readable_forward (m : Nat) (ch : List Nat) :
    readable (forward m ch) = forward m ch := by
  unfold readable
  rw [List.takeWhile_eq_self_iff]
  intro x hx
  rw [forward_eq_filter] at hx
  have hx' := (List.mem_filter.mp hx).1
  have : x ≠ 0 := fun h => zero_not_mem_readable ch (h ▸ hx')
  simpa using this

theorem next_candidate_none {m : Nat} {ch : List Nat} (h : next_candidate m ch = none) :
    ∀ x ∈ readable ch, x % m = 0 := by
  induction ch with
  | nil => intro x hx; simp [readable] at hx
  | cons v rest ih =>
    by_cases hv : v = 0
    · subst hv; intro x hx; simp [readable_cons_zero] at hx
    · by_cases hm : v % m = 0
      · simp only [next_candidate, hv, hm, if_false, ne_eq, not_true_eq_false] at h
        intro x hx
        rw [readable_cons_pos hv] at hx
        rcases List.mem_cons.mp hx with rfl | hx
        · exact hm
        · exact ih h x hx
      · simp [next_candidate, hv, hm] at h

theorem next_candidate_some {m c : Nat} {ch rest : List Nat}
    (h : next_candidate m ch = some (c, rest)) :
    ∃ skipped, readable ch = skipped ++ c :: readable rest ∧
      (∀ x ∈ skipped, x % m = 0) ∧ c % m ≠ 0 := by
  induction ch with
  | nil => simp [next_candidate] at h
  | cons v tl ih =>
    by_cases hv : v = 0
    · simp [next_candidate, hv] at h
    · by_cases hm : v % m = 0
      · simp only [next_candidate, hv, hm, if_false, ne_eq, not_true_eq_false] at h
        obtain ⟨sk, h1, h2, h3⟩ := ih h
        refine ⟨v :: sk, ?_, ?_, h3⟩
        · rw [readable_cons_pos hv, h1]; rfl
        · intro x hx
          rcases List.mem_cons.mp hx with rfl | hx
          · exact hm
          · exact h2 x hx
      · simp only [next_candidate, hv, hm, if_false, ne_eq, not_false_eq_true, if_true,
          Option.some.injEq, Prod.mk.injEq] at h
        obtain ⟨rfl, rfl⟩ := h
        exact ⟨[], by rw [readable_cons_pos hv]; rfl, by simp, hm⟩

theorem factor_search_eq_find (n m f : Nat) (c : Nat) (rest : List Nat) :
    factor_search n m f c rest =
      (c :: readable rest).find? (fun x => decide (x % m ≠ 0 ∧ umul f x = n)) := by
  induction rest generalizing c with
  | nil =>
    by_cases hc : c % m ≠ 0 ∧ umul f c = n
    · simp [factor_search, hc, readable_nil]
    · simp [factor_search, hc, readable_nil]
  | cons v tl ih =>
    by_cases hc : c % m ≠ 0 ∧ umul f c = n
    · simp [factor_search, hc]
    · by_cases hv : v = 0
      · subst hv
        simp [factor_search, hc, readable_cons_zero]
      · rw [factor_search, if_neg hc, if_neg hv, ih v, readable_cons_pos hv]
        rw [List.find?_cons (a := c)]
        simp [hc]

theorem readable_root_loop_zero (n fuel : Nat) : readable (root_loop n fuel 0).1 = [] := by
  cases fuel with
  | zero => rfl
  | succ k => simp [root_loop_succ, readable_cons_zero]

theorem readable_root_loop (n : Nat) (hn : n ≤ UINT_MAX) (fuel i : Nat) (hi : 0 < i) :
    readable (root_loop n fuel i).1 = List.range' i (min fuel (n + 1 - i)) := by
  induction fuel generalizing i with
  | zero => simp [root_loop_zero, readable_nil]
  | succ k ih =>
    unfold UINT_MAX at hn
    by_cases hin : i ≤ n
    · have hi0 : i ≠ 0 := by omega
      simp only [root_loop_succ, hin, if_true]
      rw [readable_cons_pos hi0]
      by_cases hmax : i = 4294967295
      · have hu : uinc i = 0 := by subst hmax; rfl
        rw [hu, readable_root_loop_zero]
        have : min (k + 1) (n + 1 - i) = 1 := by omega
        rw [this]; rfl
      · have hu : uinc i = i + 1 := by unfold uinc; omega
        rw [hu, ih (i + 1) (by omega)]
        have : min (k + 1) (n + 1 - i) = min k (n + 1 - (i + 1)) + 1 := by omega
        rw [this, List.range'_succ]
    · simp only [root_loop_succ, hin, if_false]
      have : min (k + 1) (n + 1 - i) = 0 := by omega
      rw [this]; rfl

theorem readable_root_channel (n : Nat) (h2 : 2 ≤ n) (hn : n ≤ UINT_MAX) :
    readable (root_loop n n (uinc 2)).1 = List.range' 3 (n - 2) := by
  have hu : uinc 2 = 3 := rfl
  rw [hu, readable_root_loop n hn n 3 (by omega)]
  congr 1
  omega

/-! The sieve invariant -/

theorem sieved_root (n : Nat) (h2 : 2 ≤ n) : Sieved n 2 (List.range' 3 (n - 2)) := by
  refine ⟨?_, ?_⟩
  · exact List.pairwise_lt_range' 3 (n - 2)
  · intro x
    rw [List.mem_range'_1]
    constructor
    · rintro ⟨h3, hx⟩
      refine ⟨by omega, by omega, ?_⟩
      intro q hq hq2
      have := hq.two_le
      omega
    · rintro ⟨h3, hx, -⟩
      omega

theorem prime_mem_sieved {n d : Nat} {vals : List Nat} (hs : Sieved n d vals) {q : Nat}
    (hq : q.Prime) (hdq : d < q) (hqn : q ≤ n) : q ∈ vals := by
  rw [hs.2]
  refine ⟨hdq, hqn, ?_⟩
  intro r hr hrd hrq
  have := (Nat.prime_dvd_prime_iff_eq hr hq).mp hrq
  omega

theorem prime_mod_ne {d q : Nat} (hd : d.Prime) (hq : q.Prime) (hdq : d < q) : q % d ≠ 0 := by
  intro h
  have := (Nat.prime_dvd_prime_iff_eq hd hq).mp (Nat.dvd_of_mod_eq_zero h)
  omega

theorem sieved_split_lt {n d c : Nat} {skipped rest : List Nat}
    (hs : Sieved n d (skipped ++ c :: rest)) {x : Nat} (hx : x ∈ skipped ++ c :: rest) :
    (x < c → x ∈ skipped) ∧ (c < x → x ∈ rest) := by
  have hp := hs.1
  rw [List.pairwise_append] at hp
  obtain ⟨-, hcr, hsk⟩ := hp
  rw [List.pairwise_cons] at hcr
  rcases List.mem_append.mp hx with h | h
  · have := hsk x h c (List.mem_cons_self _ _)
    exact ⟨fun _ => h, fun h' => by omega⟩
  · rcases List.mem_cons.mp h with rfl | h
    · exact ⟨fun h' => by omega, fun h' => by omega⟩
    · have := hcr.1 x h
      exact ⟨fun h' => by omega, fun _ => h⟩

theorem sieved_rest_gt {n d c : Nat} {skipped rest : List Nat}
    (hs : Sieved n d (skipped ++ c :: rest)) {x : Nat} (hx : x ∈ rest) : c < x := by
  have hp := hs.1
  rw [List.pairwise_append] at hp
  obtain ⟨-, hcr, -⟩ := hp
  rw [List.pairwise_cons] at hcr
  exact hcr.1 x hx

theorem candidate_next_prime {n d c : Nat} {skipped rest : List Nat} (hd : d.Prime)
    (hs : Sieved n d (skipped ++ c :: rest)) (hsk : ∀ x ∈ skipped, x % d = 0)
    (hc : c % d ≠ 0) : NextPrime d c ∧ c ≤ n := by
  have hcmem : c ∈ skipped ++ c :: rest := by simp
  obtain ⟨hdc, hcn, hcs⟩ := (hs.2 c).mp hcmem
  have hsmall : ∀ q, q.Prime → d < q → q < c → False := by
    intro q hq hdq hqc
    have hqm : q ∈ skipped ++ c :: rest := prime_mem_sieved hs hq hdq (by omega)
    exact prime_mod_ne hd hq hdq (hsk q ((sieved_split_lt hs hqm).1 hqc))
  have h2 := hd.two_le
  have hcp : c.Prime := by
    rw [Nat.prime_def_minFac]
    refine ⟨by omega, ?_⟩
    by_contra hne
    have hqp : c.minFac.Prime := Nat.minFac_prime (by omega)
    have hqdvd : c.minFac ∣ c := Nat.minFac_dvd c
    have hqle : c.minFac ≤ c := Nat.minFac_le (by omega)
    have hqd : ¬ c.minFac < d := fun h => hcs _ hqp h hqdvd
    have hqned : c.minFac ≠ d := by
      intro h
      rw [h] at hqdvd
      exact hc (Nat.mod_eq_zero_of_dvd hqdvd)
    exact hsmall _ hqp (by omega) (by omega)
  refine ⟨⟨hcp, hdc, ?_⟩, hcn⟩
  intro q hq hdq
  by_contra hlt
  exact hsmall q hq hdq (by omega)

theorem sieved_forward {n d c : Nat} {skipped rest : List Nat} (hd : d.Prime)
    (hs : Sieved n d (skipped ++ c :: rest)) (hnp : NextPrime d c) :
    Sieved n c (rest.filter (fun i => decide (i % d ≠ 0))) := by
  have hp := hs.1
  rw [List.pairwise_append] at hp
  obtain ⟨-, hcr, -⟩ := hp
  rw [List.pairwise_cons] at hcr
  refine ⟨hcr.2.sublist (List.filter_sublist _), ?_⟩
  intro x
  rw [List.mem_filter]
  constructor
  · rintro ⟨hx, hxd⟩
    have hxd' : x % d ≠ 0 := by simpa using hxd
    have hcx := sieved_rest_gt hs hx
    have hxm : x ∈ skipped ++ c :: rest := by simp [hx]
    obtain ⟨-, hxn, hxs⟩ := (hs.2 x).mp hxm
    refine ⟨hcx, hxn, ?_⟩
    intro q hq hqc hqx
    by_cases hqd : q < d
    · exact hxs q hq hqd hqx
    · by_cases hqe : q = d
      · subst hqe
        exact hxd' (Nat.mod_eq_zero_of_dvd hqx)
      · have := hnp.2.2 q hq (by omega)
        omega
  · rintro ⟨hcx, hxn, hxs⟩
    have hdc := hnp.2.1
    have hxm : x ∈ skipped ++ c :: rest := by
      rw [hs.2]
      exact ⟨by omega, hxn, fun q hq hqd => hxs q hq (by omega)⟩
    refine ⟨(sieved_split_lt hs hxm).2 hcx, ?_⟩
    have : x % d ≠ 0 := fun h => hxs d hd hdc (Nat.dvd_of_mod_eq_zero h)
    simpa using this

theorem exists_candidate {n d : Nat} {vals : List Nat} (hst : StageOK n d) (h3 : 3 ≤ n)
    (hs : Sieved n d vals) : ∃ x ∈ vals, x % d ≠ 0 := by
  obtain ⟨hd, hcase⟩ := hst
  rcases hcase with rfl | hlt
  · exact ⟨3, prime_mem_sieved hs Nat.prime_three (by omega) h3, by decide⟩
  · obtain ⟨p, hp, hdp, hp2⟩ := Nat.exists_prime_lt_and_le_two_mul d hd.ne_zero
    have h2 := hd.two_le
    have : 2 * d ≤ d * d := Nat.mul_le_mul_right d h2
    exact ⟨p, prime_mem_sieved hs hp hdp (by omega), prime_mod_ne hd hp hdp⟩

/-! The divisor check and the two final steps -/

theorem minFac_two_le {n : Nat} (h2 : 2 ≤ n) : 2 ≤ n.minFac :=
  (Nat.minFac_prime (by omega)).two_le

theorem factorInv_unset {n d : Nat} (h2 : 2 ≤ n) (hf : FactorInv n d 0) :
    ∀ q, q.Prime → q < d → ¬ q ∣ n := by
  rcases hf with ⟨-, h⟩ | ⟨h, -⟩
  · exact h
  · have := minFac_two_le h2
    omega

theorem factorInv_set {n d f : Nat} (hf : FactorInv n d f) (hne : f ≠ 0) :
    f = n.minFac ∧ f < d ∧ f * f < n ∧ ∀ q, q.Prime → q < d → q ∣ n → q = f := by
  rcases hf with ⟨h, -⟩ | h
  · exact absurd h hne
  · exact h

theorem not_prime_of_factor_set {n f : Nat} (hf : f = n.minFac) (hlt : f * f < n) :
    ¬ n.Prime := by
  intro hp
  rw [hp.minFac_eq] at hf
  subst hf
  have : f ≤ f * f := Nat.le_mul_self f
  omega

theorem classify_four : classify 4 = .factors 4 2 2 := by
  have h1 : ¬ Nat.Prime 4 := by norm_num
  have h2 : Nat.minFac 4 = 2 := by norm_num
  have h3 : Nat.Prime (4 / 2) := by norm_num
  simp [classify, h1, h2, h3]

theorem divisor_check_inl {n d f : Nat} {line : Line} (h2 : 2 ≤ n) (hn : n ≤ UINT_MAX)
    (hst : StageOK n d) (hf : FactorInv n d f) (h : divisor_check n d f = .inl line) :
    line = classify n ∧ ((d ∣ n ∧ n.minFac < d) ∨ n ≤ 4) := by
  obtain ⟨hd, hcase⟩ := hst
  have hd2 := hd.two_le
  unfold UINT_MAX at hn
  unfold divisor_check at h
  by_cases hmod : n % d = 0
  · have hdvd : d ∣ n := Nat.dvd_of_mod_eq_zero hmod
    rw [if_pos hmod] at h
    by_cases hf0 : f = 0
    · subst hf0
      rw [if_neg (by simp)] at h
      by_cases hsq : umul d d = n
      · rw [if_pos hsq] at h
        have hd4 : d = 2 := by
          rcases hcase with h' | h'
          · exact h'
          · exfalso
            unfold umul at hsq
            omega
        subst hd4
        have hn4 : n = 4 := by rw [← hsq]; rfl
        subst hn4
        injection h with h
        exact ⟨by rw [classify_four, ← h], Or.inr (by omega)⟩
      · rw [if_neg hsq] at h
        by_cases hnd : n = d
        · rw [if_pos hnd] at h
          injection h with h
          subst hnd
          refine ⟨by simp [classify, hd, ← h], Or.inr ?_⟩
          rcases hcase with h' | h'
          · omega
          · have : n ≤ n * n := Nat.le_mul_self n
            omega
        · rw [if_neg hnd] at h
          cases h
    · rw [if_pos hf0] at h
      obtain ⟨hfm, hfd, hff, -⟩ := factorInv_set hf hf0
      have hf2 : 2 ≤ f := hfm ▸ minFac_two_le h2
      have hdd : d * d < n := by
        rcases hcase with h' | h'
        · omega
        · exact h'
      have hfd' : f * d < d * d := Nat.mul_lt_mul_of_pos_right hfd (by omega)
      have hum : umul f d = f * d := by unfold umul; omega
      rw [if_neg (by rw [hum]; omega)] at h
      injection h with h
      have hnp : ¬ n.Prime := not_prime_of_factor_set hfm hff
      have hfp : f.Prime := hfm ▸ Nat.minFac_prime (by omega)
      have hq : ¬ (n / n.minFac).Prime := by
        rw [← hfm]
        intro hqp
        have hnf : f * (n / f) = n := Nat.mul_div_cancel' (hfm ▸ Nat.minFac_dvd n)
        have hdq : d ∣ n / f := by
          have hdn : d ∣ f * (n / f) := by rw [hnf]; exact hdvd
          rcases (Nat.Prime.dvd_mul hd).mp hdn with h' | h'
          · have := (Nat.prime_dvd_prime_iff_eq hd hfp).mp h'
            omega
          · exact h'
        have hdeq := (Nat.prime_dvd_prime_iff_eq hd hqp).mp hdq
        rw [← hdeq] at hnf
        omega
      exact ⟨by simp [classify, hnp, hq, ← h], Or.inl ⟨hdvd, by omega⟩⟩
  · rw [if_neg hmod] at h
    cases h

theorem divisor_check_inr {n d f g : Nat} (h2 : 2 ≤ n) (hst : StageOK n d)
    (hf : FactorInv n d f) (h : divisor_check n d f = .inr g) :
    3 ≤ n ∧ ∀ c, NextPrime d c → FactorInv n c g := by
  obtain ⟨hd, hcase⟩ := hst
  have hd2 := hd.two_le
  have hle : ∀ c q, NextPrime d c → q.Prime → q < c → q ≤ d := by
    intro c q hc hq hqc
    by_contra hlt
    have := hc.2.2 q hq (by omega)
    omega
  unfold divisor_check at h
  by_cases hmod : n % d = 0
  · have hdvd : d ∣ n := Nat.dvd_of_mod_eq_zero hmod
    rw [if_pos hmod] at h
    by_cases hf0 : f = 0
    · subst hf0
      rw [if_neg (by simp)] at h
      by_cases hsq : umul d d = n
      · rw [if_pos hsq] at h; cases h
      · rw [if_neg hsq] at h
        by_cases hnd : n = d
        · rw [if_pos hnd] at h; cases h
        · rw [if_neg hnd] at h
          injection h with h
          subst h
          have hnone := factorInv_unset h2 hf
          have hmin : d = n.minFac := by
            have h1 : n.minFac ≤ d := Nat.minFac_le_of_dvd hd2 hdvd
            have h3 : ¬ n.minFac < d := fun hlt =>
              hnone _ (Nat.minFac_prime (by omega)) hlt (Nat.minFac_dvd n)
            omega
          have hdd : d * d < n := by
            rcases hcase with h' | h'
            · subst h'
              have : umul 2 2 = 4 := rfl
              omega
            · exact h'
          refine ⟨by nlinarith, ?_⟩
          intro c hc
          refine Or.inr ⟨hmin, hc.2.1, hdd, ?_⟩
          intro q hq hqc hqn
          have := hle c q hc hq hqc
          by_contra hne
          exact hnone q hq (by omega) hqn
    · rw [if_pos hf0] at h
      split at h <;> cases h
  · rw [if_neg hmod] at h
    injection h with h
    subst h
    have hndvd : ¬ d ∣ n := fun hdvd => hmod (Nat.mod_eq_zero_of_dvd hdvd)
    refine ⟨?_, ?_⟩
    · rcases hcase with h' | h'
      · subst h'; omega
      · nlinarith
    · intro c hc
      rcases hf with ⟨hf0, hnone⟩ | ⟨hfm, hfd, hff, hall⟩
      · refine Or.inl ⟨hf0, ?_⟩
        intro q hq hqc hqn
        have := hle c q hc hq hqc
        by_cases hqd : q = d
        · exact hndvd (hqd ▸ hqn)
        · exact hnone q hq (by omega) hqn
      · refine Or.inr ⟨hfm, by have := hc.2.1; omega, hff, ?_⟩
        intro q hq hqc hqn
        have := hle c q hc hq hqc
        by_cases hqd : q = d
        · exact absurd (hqd ▸ hqn) hndvd
        · exact hall q hq (by omega) hqn

theorem umul_eq_iff {p m x n : Nat} (hp : p.Prime) (hpm : p * m = n) (hn : n ≤ UINT_MAX)
    (hx : x ≤ n) : umul p x = n ↔ x = m := by
  unfold UINT_MAX at hn
  have hp2 := hp.two_le
  have hmn : m ≤ n := by nlinarith
  constructor
  · intro h
    unfold umul at h
    by_cases h2 : p = 2
    · subst h2; omega
    · have hcop : Nat.Coprime p 2 := (Nat.coprime_primes hp Nat.prime_two).mpr h2
      have hcop' : Nat.gcd 4294967296 p = 1 := by
        have : Nat.Coprime p (2 ^ 32) := Nat.Coprime.pow_right 32 hcop
        rw [Nat.gcd_comm]
        exact this
      have hmod : p * x ≡ p * m [MOD 4294967296] := by
        unfold Nat.ModEq
        rw [h, hpm]
        exact (Nat.mod_eq_of_lt (by omega)).symm
      have := Nat.ModEq.cancel_left_of_coprime hcop' hmod
      unfold Nat.ModEq at this
      omega
  · rintro rfl
    unfold umul
    omega

theorem search_classify {n d c f : Nat} {skipped rest : List Nat} (h2 : 2 ≤ n)
    (hn : n ≤ UINT_MAX) (hd : d.Prime) (hs : Sieved n d (skipped ++ c :: rest))
    (hnp : NextPrime d c) (hf : FactorInv n c f) (hf0 : f ≠ 0)
    (hsq : ¬ c * c < n) :
    (match (c :: rest).find? (fun x => decide (x % d ≠ 0 ∧ umul f x = n)) with
      | some found => Line.factors n f found
      | none => Line.notProduct n) = classify n := by
  obtain ⟨hfm, hfc, hff, hall⟩ := factorInv_set hf hf0
  have hfp : f.Prime := hfm ▸ Nat.minFac_prime (by omega)
  have hf2 := hfp.two_le
  have hnf : f * (n / f) = n := Nat.mul_div_cancel' (hfm ▸ Nat.minFac_dvd n)
  have hnprime : ¬ n.Prime := not_prime_of_factor_set hfm hff
  have hmem_le : ∀ x ∈ c :: rest, x ≤ n := by
    intro x hx
    have : x ∈ skipped ++ c :: rest := List.mem_append_right _ hx
    exact ((hs.2 x).mp this).2.1
  have hkey : ∀ x ∈ c :: rest, (umul f x = n ↔ x = n / f) := fun x hx =>
    umul_eq_iff hfp hnf hn (hmem_le x hx)
  have hmgt : f < n / f := by
    by_contra hle
    have : f * (n / f) ≤ f * f := Nat.mul_le_mul_left f (by omega)
    omega
  by_cases hmp : (n / f).Prime
  · have hmc : c ≤ n / f := by
      by_contra hlt
      have := hall (n / f) hmp (by omega) (Dvd.intro_left f hnf)
      omega
    have hmn : n / f ≤ n := Nat.div_le_self n f
    have hmmem : n / f ∈ c :: rest := by
      rcases Nat.eq_or_lt_of_le hmc with h | h
      · rw [← h]; exact List.mem_cons_self _ _
      · have hm1 := prime_mem_sieved hs hmp (by have := hnp.2.1; omega) hmn
        exact List.mem_cons_of_mem _ ((sieved_split_lt hs hm1).2 h)
    have hmd : (n / f) % d ≠ 0 := prime_mod_ne hd hmp (by have := hnp.2.1; omega)
    cases hfind : (c :: rest).find? (fun x => decide (x % d ≠ 0 ∧ umul f x = n)) with
    | none =>
      rw [List.find?_eq_none] at hfind
      have := hfind (n / f) hmmem
      simp [hmd, (hkey _ hmmem).mpr rfl] at this
    | some y =>
      have hy := List.find?_some hfind
      have hymem := List.mem_of_find?_eq_some hfind
      simp only [decide_eq_true_eq] at hy
      have hyeq := (hkey y hymem).mp hy.2
      subst hyeq
      simp [classify, hnprime, ← hfm, hmp]
  · cases hfind : (c :: rest).find? (fun x => decide (x % d ≠ 0 ∧ umul f x = n)) with
    | none => simp [classify, hnprime, ← hfm, hmp]
    | some y =>
      exfalso
      have hy := List.find?_some hfind
      have hymem := List.mem_of_find?_eq_some hfind
      simp only [decide_eq_true_eq] at hy
      have hyeq := (hkey y hymem).mp hy.2
      subst hyeq
      rcases List.mem_cons.mp hymem with h | h
      · exact hmp (h ▸ hnp.1)
      · have hm1 : n / f ∈ skipped ++ c :: rest :=
          List.mem_append_right _ (List.mem_cons_of_mem _ h)
        obtain ⟨-, -, hsieve⟩ := (hs.2 _).mp hm1
        have hqp : (n / f).minFac.Prime := Nat.minFac_prime (by omega)
        have hqdvd : (n / f).minFac ∣ n / f := Nat.minFac_dvd _
        have hqsq : (n / f).minFac ^ 2 ≤ n / f := Nat.minFac_sq_le_self (by omega) hmp
        have hq1 : ¬ (n / f).minFac < d := fun hlt => hsieve _ hqp hlt hqdvd
        have hq2 : (n / f).minFac ≠ d := by
          intro he
          rw [he] at hqdvd
          exact hy.1 (Nat.mod_eq_zero_of_dvd hqdvd)
        have hcq : c ≤ (n / f).minFac := hnp.2.2 _ hqp (by omega)
        have hlt : n / f < n := Nat.div_lt_self (by omega) (by omega)
        have : c * c ≤ (n / f).minFac ^ 2 := by
          rw [sq]; exact Nat.mul_le_mul hcq hcq
        omega

theorem prime_65521 : Nat.Prime 65521 := by norm_num

theorem prime_65537 : Nat.Prime 65537 := by norm_num

theorem square_no_wrap {n d c : Nat} (hn : n ≤ UINT_MAX) (hst : StageOK n d)
    (hnp : NextPrime d c) (hprime : n.Prime) : umul c c ≠ n := by
  unfold UINT_MAX at hn
  intro h
  unfold umul at h
  obtain ⟨hcp, hdc, hmin⟩ := hnp
  have hc2 := hcp.two_le
  have hne : c * c ≠ n := by
    intro he
    have hdvd : c ∣ n := Dvd.intro c he
    have := (Nat.prime_dvd_prime_iff_eq hcp hprime).mp hdvd
    subst this
    have : c * 2 ≤ c * c := Nat.mul_le_mul_left c hc2
    omega
  have hbig : 4294967296 ≤ c * c := by
    by_contra hlt
    rw [Nat.mod_eq_of_lt (by omega)] at h
    exact hne h
  have hc : 65536 ≤ c := by
    by_contra hlt
    have : c * c ≤ 65535 * 65535 := Nat.mul_le_mul (by omega) (by omega)
    omega
  have hd1 : 65521 ≤ d := by
    by_contra hlt
    have := hmin 65521 prime_65521 (by omega)
    omega
  have hdd : d * d < n := by
    rcases hst.2 with h' | h'
    · omega
    · exact h'
  have hd2 : d < 65536 := by
    by_contra hge
    have : 65536 * 65536 ≤ d * d := Nat.mul_le_mul (by omega) (by omega)
    omega
  have hc1 : c ≤ 65537 := hmin 65537 prime_65537 (by omega)
  have hceq : c = 65537 := by
    rcases Nat.lt_or_ge c 65537 with h' | h'
    · exfalso
      have : c = 65536 := by omega
      subst this
      have : ¬ Nat.Prime 65536 := by norm_num
      exact this hcp
    · omega
  subst hceq
  have : 65521 * 65521 ≤ d * d := Nat.mul_le_mul hd1 hd1
  omega

theorem unset_classify {n d c : Nat} (h2 : 2 ≤ n) (hn : n ≤ UINT_MAX) (hst : StageOK n d)
    (hnp : NextPrime d c) (hf : FactorInv n c 0) (hsq : ¬ c * c < n) :
    (if umul c c = n then Line.factors n c c else Line.prime n) = classify n := by
  have hnone := factorInv_unset h2 hf
  by_cases hprime : n.Prime
  · rw [if_neg (square_no_wrap hn hst hnp hprime)]
    simp [classify, hprime]
  · have hqp : n.minFac.Prime := Nat.minFac_prime (by omega)
    have hqsq : n.minFac ^ 2 ≤ n := Nat.minFac_sq_le_self (by omega) hprime
    have hcq : c ≤ n.minFac := by
      by_contra hlt
      exact hnone _ hqp (by omega) (Nat.minFac_dvd n)
    have h1 : c * c ≤ n.minFac ^ 2 := by
      rw [sq]; exact Nat.mul_le_mul hcq hcq
    have hcc : c * c = n := by omega
    have hqc : n.minFac = c := by
      by_contra hne
      have hlt : c < n.minFac := by omega
      have : c * c < n.minFac * n.minFac := Nat.mul_self_lt_mul_self hlt
      rw [sq] at hqsq
      omega
    have hum : umul c c = n := by
      unfold umul UINT_MAX at *
      omega
    have hc0 : 0 < c := hnp.1.pos
    have hdiv : n / c = c := by
      rw [← hcc]; exact Nat.mul_div_cancel c hc0
    rw [if_pos hum]
    simp [classify, hprime, hqc, hdiv, hnp.1]

/-! The chain of stages -/

theorem count_prime_gap {d c : Nat} (hnp : NextPrime d c) (k : Nat) (hk : d + 1 + k ≤ c) :
    Nat.count Nat.Prime (d + 1 + k) = Nat.count Nat.Prime (d + 1) := by
  induction k with
  | zero => rfl
  | succ j ih =>
    have hnot : ¬ Nat.Prime (d + 1 + j) := by
      intro hp
      have := hnp.2.2 _ hp (by omega)
      omega
    rw [← Nat.add_assoc, Nat.count_succ, if_neg hnot, Nat.add_zero]
    exact ih (by omega)

theorem count_next_prime {d c : Nat} (hd : d.Prime) (hnp : NextPrime d c) :
    Nat.count Nat.Prime c = Nat.count Nat.Prime d + 1 := by
  have hdc := hnp.2.1
  have h := count_prime_gap hnp (c - (d + 1)) (by omega)
  have hc : d + 1 + (c - (d + 1)) = c := by omega
  rw [hc] at h
  rw [h, Nat.count_succ, if_pos hd]

theorem stagesFrom_self {d : Nat} (hd : d.Prime) : stagesFrom d d = 1 := by
  unfold stagesFrom
  rw [Nat.count_succ, if_pos hd]
  omega

theorem stagesFrom_pos {d T : Nat} (hd : d.Prime) (hdT : d ≤ T) : 1 ≤ stagesFrom d T := by
  unfold stagesFrom
  have h1 : Nat.count Nat.Prime (d + 1) ≤ Nat.count Nat.Prime (T + 1) :=
    Nat.count_monotone _ (by omega)
  rw [Nat.count_succ, if_pos hd] at h1
  omega

theorem stagesFrom_next {d c T : Nat} (hd : d.Prime) (hnp : NextPrime d c) (hcT : c ≤ T) :
    stagesFrom d T = stagesFrom c T + 1 := by
  unfold stagesFrom
  have h1 : Nat.count Nat.Prime c ≤ Nat.count Nat.Prime (T + 1) :=
    Nat.count_monotone _ (by omega)
  have h2 := count_next_prime hd hnp
  omega

theorem terminal_of_factorInv {n d f : Nat} (hst : StageOK n d) (hf : FactorInv n d f)
    (hstop : (d ∣ n ∧ n.minFac < d) ∨ ∀ c, c.Prime → d < c → n ≤ c * c) : Terminal n d := by
  refine ⟨hst, ?_, hstop⟩
  intro q hq hqd hqn
  rcases hf with ⟨-, hnone⟩ | ⟨hfm, -, -, hall⟩
  · exact absurd hqn (hnone q hq hqd)
  · rw [← hfm]; exact hall q hq hqd hqn

theorem child_branch_ok {n d f : Nat} {fd0 : List Nat}
    (spawn : Nat → Nat → List Nat → Option Outcome) (h2 : 2 ≤ n) (hn : n ≤ UINT_MAX)
    (hst : StageOK n d) (hf : FactorInv n d f) (hs : Sieved n d (readable fd0))
    (ih : ∀ c g rest, NextPrime d c → c * c < n → FactorInv n c g →
      Sieved n c (readable (forward d rest)) →
      ∃ T, Terminal n T ∧ c ≤ T ∧ spawn c g rest =
        some ⟨[classify n], .exited (stagesFrom c T % 256 + 1), stagesFrom c T, false⟩) :
    ∃ T, Terminal n T ∧ d ≤ T ∧ child_branch n d f fd0 spawn =
      some ⟨[classify n], .exited ((stagesFrom d T - 1) % 256 + 1), stagesFrom d T - 1, false⟩ := by
  have hd := hst.1
  unfold child_branch
  cases hdc : divisor_check n d f with
  | inl line =>
    obtain ⟨hline, hstop⟩ := divisor_check_inl h2 hn hst hf hdc
    refine ⟨d, terminal_of_factorInv hst hf ?_, le_refl d, ?_⟩
    · rcases hstop with h | h
      · exact Or.inl h
      · refine Or.inr ?_
        intro c hc hdc'
        have := hd.two_le
        have : 3 * 3 ≤ c * c := Nat.mul_le_mul (by omega) (by omega)
        omega
    · simp [stagesFrom_self hd, hline]
  | inr g =>
    obtain ⟨h3, hg⟩ := divisor_check_inr h2 hst hf hdc
    cases hnc : next_candidate d fd0 with
    | none =>
      exfalso
      obtain ⟨x, hx, hxd⟩ := exists_candidate hst h3 hs
      exact hxd (next_candidate_none hnc x hx)
    | some pr =>
      obtain ⟨c, rest⟩ := pr
      obtain ⟨skipped, hsplit, hsk, hcd⟩ := next_candidate_some hnc
      rw [hsplit] at hs
      obtain ⟨hnp, hcn⟩ := candidate_next_prime hd hs hsk hcd
      have hgc := hg c hnp
      by_cases hsq : c * c < n
      · have hsv : Sieved n c (readable (forward d rest)) := by
          rw [readable_forward, forward_eq_filter]
          exact sieved_forward hd hs hnp
        obtain ⟨T, hT, hcT, hsp⟩ := ih c g rest hnp hsq hgc hsv
        refine ⟨T, hT, by have := hnp.2.1; omega, ?_⟩
        have hcount := stagesFrom_next hd hnp hcT
        simp only [below_sqrt, hsq, decide_True, if_true]
        rw [hsp, hcount]
        rfl
      · have hterm : Terminal n d := by
          refine terminal_of_factorInv hst hf (Or.inr ?_)
          intro c' hc' hdc'
          have hcc := hnp.2.2 c' hc' hdc'
          have : c * c ≤ c' * c' := Nat.mul_le_mul hcc hcc
          omega
        refine ⟨d, hterm, le_refl d, ?_⟩
        simp only [below_sqrt, hsq, decide_False, stagesFrom_self hd]
        by_cases hg0 : g = 0
        · subst hg0
          have := unset_classify h2 hn hst hnp hgc hsq
          by_cases hum : umul c c = n
          · rw [if_pos hum] at this
            simp [hum, this]
          · rw [if_neg hum] at this
            simp [hum, this]
        · have := search_classify h2 hn hd hs hnp hgc hg0 hsq
          rw [← factor_search_eq_find] at this
          cases hfs : factor_search n d g c rest with
          | none =>
            rw [hfs] at this
            simp [hg0, ← this]
          | some found =>
            rw [hfs] at this
            simp [hg0, ← this]

theorem stageOK_le {n d : Nat} (h2 : 2 ≤ n) (hst : StageOK n d) : d ≤ n := by
  rcases hst.2 with h | h
  · omega
  · have : d ≤ d * d := Nat.le_mul_self d
    omega

theorem process_range_nested {n : Nat} (h2 : 2 ≤ n) (hn : n ≤ UINT_MAX) (fuel : Nat) :
    ∀ m d f inp, n < d + fuel → StageOK n d → FactorInv n d f →
      Sieved n d (readable (forward m inp)) →
      ∃ T, Terminal n T ∧ d ≤ T ∧ process_range n fuel m d f (some inp) =
        some ⟨[classify n], .exited (stagesFrom d T % 256 + 1), stagesFrom d T, false⟩ := by
  induction fuel with
  | zero =>
    intro m d f inp hfuel hst
    have := stageOK_le h2 hst
    omega
  | succ k ih =>
    intro m d f inp hfuel hst hf hs
    have hchild := child_branch_ok
      (fun factor2 factor rest => process_range n k d factor2 factor (some rest))
      h2 hn hst hf hs
      (fun c g rest hnp hsq hg hsv =>
        ih d c g rest (by have := hnp.2.1; omega) ⟨hnp.1, Or.inr hsq⟩ hg hsv)
    obtain ⟨T, hT, hdT, hrun⟩ := hchild
    refine ⟨T, hT, hdT, ?_⟩
    have hpos := stagesFrom_pos hst.1 hdT
    simp only [process_range, hrun, Option.isSome_some, if_true, WEXITSTATUS]
    have h1 : ((stagesFrom d T - 1) % 256 + 1) % 256 = stagesFrom d T % 256 := by omega
    have h3 : stagesFrom d T - 1 + 1 = stagesFrom d T := by omega
    rw [h1, h3]

theorem count_prime_two : Nat.count Nat.Prime 2 = 0 := by
  simp [Nat.count_succ, Nat.not_prime_zero, Nat.not_prime_one]

theorem stagesFrom_two (T : Nat) : stagesFrom 2 T = Nat.primeCounting T := by
  unfold stagesFrom
  rw [count_prime_two]
  rfl

/-- The run of the pipeline on any admissible `n`: one classification line, the
one the factorisation of `n` calls for, and the number of primes up to the
divisor of the classifying stage as stage count, returned modulo 256. -/
theorem pipeline_run {n : Nat} (h2 : 2 ≤ n) (hn : n ≤ UINT_MAX) :
    ∃ T, Terminal n T ∧ pipeline n =
      some ⟨[classify n], .returned (Nat.primeCounting T % 256), Nat.primeCounting T, false⟩ := by
  obtain ⟨k, hk⟩ : ∃ k, n = k + 1 := ⟨n - 1, by omega⟩
  have hst : StageOK n 2 := ⟨Nat.prime_two, Or.inl rfl⟩
  have hf : FactorInv n 2 0 := by
    refine Or.inl ⟨rfl, ?_⟩
    intro q hq hq2
    have := hq.two_le
    omega
  have hs : Sieved n 2 (readable (root_loop n n (uinc 2)).1) := by
    rw [readable_root_channel n h2 hn]
    exact sieved_root n h2
  have hchild := child_branch_ok
    (fun factor2 factor rest => process_range n k 2 factor2 factor (some rest))
    h2 hn hst hf hs
    (fun c g rest hnp hsq hg hsv =>
      process_range_nested h2 hn k 2 c g rest (by have := hnp.2.1; omega)
        ⟨hnp.1, Or.inr hsq⟩ hg hsv)
  obtain ⟨T, hT, hdT, hrun⟩ := hchild
  refine ⟨T, hT, ?_⟩
  have hpos := stagesFrom_pos hst.1 hdT
  rw [stagesFrom_two] at hrun hpos
  unfold pipeline
  conv_lhs => rw [hk]
  rw [process_range]
  simp only [← hk, hrun, WEXITSTATUS]
  have h1 : ((Nat.primeCounting T - 1) % 256 + 1) % 256 = Nat.primeCounting T % 256 := by omega
  have h3 : Nat.primeCounting T - 1 + 1 = Nat.primeCounting T := by omega
  rw [h1, h3]

/-! Counting primes -/

theorem trial_sound (n : Nat) (fuel : Nat) :
    ∀ d, n < d + fuel → trial n fuel d = true → ∀ k, d ≤ k → k * k ≤ n → ¬ k ∣ n := by
  induction fuel with
  | zero =>
    intro d hfuel _ k hdk hkk
    have : k ≤ k * k := Nat.le_mul_self k
    omega
  | succ j ih =>
    intro d hfuel ht k hdk hkk
    unfold trial at ht
    by_cases hdd : n < d * d
    · have : d * d ≤ k * k := Nat.mul_le_mul hdk hdk
      omega
    · rw [if_neg hdd] at ht
      by_cases hmod : n % d = 0
      · rw [if_pos hmod] at ht
        cases ht
      · rw [if_neg hmod] at ht
        rcases Nat.eq_or_lt_of_le hdk with h | h
        · subst h
          exact fun hdvd => hmod (Nat.mod_eq_zero_of_dvd hdvd)
        · exact ih (d + 1) (by omega) ht k h hkk

theorem trial_complete (n : Nat) (fuel : Nat) :
    ∀ d, (∀ k, d ≤ k → k * k ≤ n → ¬ k ∣ n) → trial n fuel d = true := by
  induction fuel with
  | zero => intro d _; rfl
  | succ j ih =>
    intro d h
    unfold trial
    by_cases hdd : n < d * d
    · rw [if_pos hdd]
    · rw [if_neg hdd]
      have hnd : ¬ d ∣ n := h d (le_refl d) (by omega)
      have hmod : n % d ≠ 0 := fun hm => hnd (Nat.dvd_of_mod_eq_zero hm)
      rw [if_neg hmod]
      exact ih (d + 1) (fun k hk hkk => h k (by omega) hkk)

theorem primeB_iff (n : Nat) : primeB n = true ↔ n.Prime := by
  rw [Nat.prime_def_le_sqrt]
  unfold primeB
  rw [Bool.and_eq_true, decide_eq_true_eq]
  constructor
  · rintro ⟨h2, ht⟩
    refine ⟨h2, ?_⟩
    intro m hm hms
    exact trial_sound n n 2 (by omega) ht m hm (Nat.le_sqrt.mp hms)
  · rintro ⟨h2, h⟩
    refine ⟨h2, trial_complete n n 2 ?_⟩
    intro k hk hkk
    exact h k hk (Nat.le_sqrt.mpr hkk)

theorem countB_eq (k : Nat) : ∀ acc, countB k acc = acc + Nat.count Nat.Prime k := by
  induction k with
  | zero => intro acc; simp [countB]
  | succ j ih =>
    intro acc
    rw [countB, ih, Nat.count_succ]
    by_cases hp : j.Prime
    · rw [if_pos ((primeB_iff j).mpr hp), if_pos hp]
      omega
    · have : ¬ primeB j = true := fun h => hp ((primeB_iff j).mp h)
      rw [if_neg this, if_neg hp]
      omega

set_option maxRecDepth 100000 in
theorem primeCounting_1619 : Nat.primeCounting 1619 = 256 := by
  have h : countB 1620 0 = 256 := by decide
  rw [countB_eq, Nat.zero_add] at h
  exact h

theorem count_eq_of_no_prime {a b : Nat} (hab : a ≤ b)
    (h : ∀ q, q.Prime → a ≤ q → q < b → False) :
    Nat.count Nat.Prime b = Nat.count Nat.Prime a := by
  obtain ⟨k, rfl⟩ : ∃ k, b = a + k := ⟨b - a, by omega⟩
  clear hab
  induction k with
  | zero => rfl
  | succ j ih =>
    have hnot : ¬ Nat.Prime (a + j) := fun hp => h _ hp (by omega) (by omega)
    rw [← Nat.add_assoc, Nat.count_succ, if_neg hnot, Nat.add_zero]
    exact ih (fun q hq haq hqb => h q hq haq (by omega))

theorem count_prime_three : Nat.count Nat.Prime 3 = 1 := by
  rw [Nat.count_succ, count_prime_two, if_pos Nat.prime_two]

theorem prime_not_square {p c : Nat} (hp : p.Prime) (hc : c.Prime) : p ≠ c * c := by
  intro he
  have hdvd : c ∣ p := Dvd.intro c he.symm
  have := (Nat.prime_dvd_prime_iff_eq hc hp).mp hdvd
  subst this
  have hc2 := hc.two_le
  have : c * 2 ≤ c * c := Nat.mul_le_mul_left c hc2
  omega

theorem terminal_prime {p T : Nat} (hp : p.Prime) (hT : Terminal p T) :
    (T = 2 ∨ T * T < p) ∧ ∀ c, c.Prime → T < c → p < c * c := by
  obtain ⟨hst, -, hstop⟩ := hT
  refine ⟨hst.2, ?_⟩
  have hall : ∀ c, c.Prime → T < c → p ≤ c * c := by
    rcases hstop with ⟨hdvd, hlt⟩ | h
    · exfalso
      rw [hp.minFac_eq] at hlt
      have := Nat.le_of_dvd hp.pos hdvd
      omega
    · exact h
  intro c hc hTc
  have h1 := hall c hc hTc
  have h2 := prime_not_square hp hc
  omega

theorem prime_count_of_terminal {p T : Nat} (hp : p.Prime) (hT : Terminal p T) :
    Nat.primeCounting T = max 1 (Nat.primeCounting (Nat.sqrt p)) := by
  have hTp : T.Prime := hT.1.1
  obtain ⟨hcase, hall⟩ := terminal_prime hp hT
  have hpos : 1 ≤ Nat.primeCounting T := by
    have := stagesFrom_pos hTp (le_refl T)
    rw [stagesFrom_self hTp] at this
    show 1 ≤ Nat.count Nat.Prime (T + 1)
    rw [Nat.count_succ, if_pos hTp]
    omega
  by_cases hle : T ≤ Nat.sqrt p
  · have heq : Nat.count Nat.Prime (Nat.sqrt p + 1) = Nat.count Nat.Prime (T + 1) := by
      apply count_eq_of_no_prime (by omega)
      intro q hq hTq hqs
      have hqq : q * q ≤ p := Nat.le_sqrt.mp (by omega)
      have := hall q hq (by omega)
      omega
    have heq' : Nat.primeCounting (Nat.sqrt p) = Nat.primeCounting T := heq
    rw [heq']
    omega
  · have hT2 : T = 2 := by
      rcases hcase with h | h
      · exact h
      · exfalso
        exact hle (Nat.le_sqrt.mpr (by omega))
    subst hT2
    have h1 : Nat.primeCounting 2 = 1 := count_prime_three
    have h0 : Nat.primeCounting (Nat.sqrt p) = 0 := by
      have hmono : Nat.count Nat.Prime (Nat.sqrt p + 1) ≤ Nat.count Nat.Prime 2 :=
        Nat.count_monotone _ (by omega)
      rw [count_prime_two] at hmono
      show Nat.count Nat.Prime (Nat.sqrt p + 1) = 0
      omega
    rw [h1, h0]
    rfl

/-! The properties of the specification -/

theorem classify_two_primes {p q : Nat} (hp : p.Prime) (hq : q.Prime) (hpq : p ≤ q) :
    classify (p * q) = .factors (p * q) p q := by
  have hnp : ¬ (p * q).Prime := Nat.not_prime_mul hp.one_lt.ne' hq.one_lt.ne'
  have hmin : (p * q).minFac = p := by
    have h2 : 2 ≤ p * q := by
      have := hp.two_le
      have := hq.two_le
      nlinarith
    have hmp : (p * q).minFac.Prime := Nat.minFac_prime (by omega)
    have h1 : (p * q).minFac ≤ p := Nat.minFac_le_of_dvd hp.two_le (Dvd.intro q rfl)
    have h3 : p ≤ (p * q).minFac := by
      rcases (Nat.Prime.dvd_mul hmp).mp (Nat.minFac_dvd (p * q)) with h | h
      · exact le_of_eq ((Nat.prime_dvd_prime_iff_eq hmp hp).mp h).symm
      · have := (Nat.prime_dvd_prime_iff_eq hmp hq).mp h
        omega
    omega
  have hdiv : p * q / p = q := Nat.mul_div_cancel_left q hp.pos
  simp [classify, hnp, hmin, hdiv, hq]

theorem classify_three_factors {n : Nat} (h2 : 2 ≤ n) (h3 : 3 ≤ n.primeFactorsList.length) :
    classify n = .notProduct n := by
  have hnp : ¬ n.Prime := by
    intro hp
    rw [Nat.primeFactorsList_prime hp] at h3
    simp at h3
  have hq : ¬ (n / n.minFac).Prime := by
    intro hp
    obtain ⟨k, rfl⟩ : ∃ k, n = k + 2 := ⟨n - 2, by omega⟩
    rw [Nat.primeFactorsList_add_two, Nat.primeFactorsList_prime hp] at h3
    simp at h3
  simp [classify, hnp, hq]

theorem classify_factors {n m f1 f2 : Nat}
    (h : classify n = .factors m f1 f2) : m = n ∧ f1 ≤ f2 ∧ f1 * f2 = n := by
  unfold classify at h
  by_cases hp : n.Prime
  · rw [if_pos hp] at h
    cases h
  · rw [if_neg hp] at h
    by_cases hq : (n / n.minFac).Prime
    · rw [if_pos hq] at h
      injection h with h1 h2' h3
      subst h1 h2' h3
      have hmul : n.minFac * (n / n.minFac) = n := Nat.mul_div_cancel' (Nat.minFac_dvd n)
      refine ⟨rfl, ?_, hmul⟩
      exact Nat.minFac_le_of_dvd hq.two_le (Dvd.intro_left _ hmul)
    · rw [if_neg hq] at h
      cases h

theorem classify_is_classification (n : Nat) :
    classify n = .prime n ∨ (∃ f1 f2, classify n = .factors n f1 f2) ∨
      classify n = .notProduct n := by
  unfold classify
  by_cases hp : n.Prime
  · exact Or.inl (by rw [if_pos hp])
  · by_cases hq : (n / n.minFac).Prime
    · exact Or.inr (Or.inl ⟨_, _, by rw [if_neg hp, if_pos hq]⟩)
    · exact Or.inr (Or.inr (by rw [if_neg hp, if_neg hq]))

/-- C1: for primes `p ≤ q` with `p * q ≤ UINT_MAX` the run of the pipeline on
`p * q` prints exactly one line, the two-factor line with the pair in the order
`(p, q)`. -/
theorem C1_two_primes_in_order (p q : Nat) (hp : p.Prime) (hq : q.Prime) (hpq : p ≤ q)
    (hn : p * q ≤ UINT_MAX) :
    ∃ o, pipeline (p * q) = some o ∧ o.out = [Line.factors (p * q) p q] := by
  have h2 : 2 ≤ p * q := by
    have := hp.two_le
    have := hq.two_le
    nlinarith
  obtain ⟨T, -, hrun⟩ := pipeline_run h2 hn
  exact ⟨_, hrun, by rw [classify_two_primes hp hq hpq]⟩

/-- C1 at `p = 5`, `q = 7`: the run on `35` prints the pair `(5, 7)`. -/
theorem C1_witness_35 :
    (Nat.Prime 5 ∧ Nat.Prime 7 ∧ 5 ≤ 7 ∧ 5 * 7 ≤ UINT_MAX) ∧
      ∃ o, pipeline (5 * 7) = some o ∧ o.out = [Line.factors (5 * 7) 5 7] :=
  ⟨⟨by norm_num, by norm_num, by decide, by decide⟩,
    C1_two_primes_in_order 5 7 (by norm_num) (by norm_num) (by decide) (by decide)⟩

/-- The runs named in the specification, evaluated: `4` gives `(2, 2)`, `9`
gives `(3, 3)`, `35` gives `(5, 7)`, `13` is prime and `30` is not the product
of two primes. -/
theorem pipeline_examples :
    pipeline 4 = some ⟨[.factors 4 2 2], .returned 1, 1, false⟩ ∧
    pipeline 9 = some ⟨[.factors 9 3 3], .returned 1, 1, false⟩ ∧
    pipeline 35 = some ⟨[.factors 35 5 7], .returned 3, 3, false⟩ ∧
    pipeline 13 = some ⟨[.prime 13], .returned 2, 2, false⟩ ∧
    pipeline 30 = some ⟨[.notProduct 30], .returned 2, 2, false⟩ := by
  refine ⟨?_, ?_, ?_, ?_, ?_⟩ <;> decide

/-- C2: for a prime `p ≤ UINT_MAX` the run of the pipeline on `p` prints exactly
one line, `p is prime`. -/
theorem C2_prime_is_prime (p : Nat) (hp : p.Prime) (hn : p ≤ UINT_MAX) :
    ∃ o, pipeline p = some o ∧ o.out = [Line.prime p] := by
  obtain ⟨T, -, hrun⟩ := pipeline_run hp.two_le hn
  exact ⟨_, hrun, by simp [classify, hp]⟩

/-- C2 at `p = 13`. -/
theorem C2_witness_13 :
    (Nat.Prime 13 ∧ 13 ≤ UINT_MAX) ∧ ∃ o, pipeline 13 = some o ∧ o.out = [Line.prime 13] :=
  ⟨⟨by norm_num, by decide⟩, C2_prime_is_prime 13 (by norm_num) (by decide)⟩

/-- C3: for `n` in `[2, UINT_MAX]` with three or more prime factors counted with
multiplicity the run of the pipeline prints exactly one line, `n is not the
product of two primes`. -/
theorem C3_three_factors_not_product (n : Nat) (h2 : 2 ≤ n) (hn : n ≤ UINT_MAX)
    (h3 : 3 ≤ n.primeFactorsList.length) :
    ∃ o, pipeline n = some o ∧ o.out = [Line.notProduct n] := by
  obtain ⟨T, -, hrun⟩ := pipeline_run h2 hn
  exact ⟨_, hrun, by rw [classify_three_factors h2 h3]⟩

theorem primeFactorsList_30_length : (Nat.primeFactorsList 30).length = 3 := by
  have hperm : List.Perm [2, 3, 5] (Nat.primeFactorsList 30) := by
    apply Nat.primeFactorsList_unique
    · rfl
    · intro p hp
      simp only [List.mem_cons, List.mem_singleton, List.not_mem_nil, or_false] at hp
      rcases hp with rfl | rfl | rfl <;> norm_num
  rw [← hperm.length_eq]
  rfl

/-- C3 at `n = 30 = 2 * 3 * 5`. -/
theorem C3_witness_30 :
    (2 ≤ 30 ∧ 30 ≤ UINT_MAX ∧ 3 ≤ (Nat.primeFactorsList 30).length) ∧
      ∃ o, pipeline 30 = some o ∧ o.out = [Line.notProduct 30] :=
  ⟨⟨by decide, by decide, by rw [primeFactorsList_30_length]⟩,
    C3_three_factors_not_product 30 (by decide) (by decide)
      (by rw [primeFactorsList_30_length])⟩

/-- C4: for `n` in `[2, UINT_MAX]` the run of the pipeline prints exactly one
line, which is one of the three classifications of `n`, and no stage leaves its
read loop through the `return 0` of line 194. -/
theorem C4_exactly_one_classification (n : Nat) (h2 : 2 ≤ n) (hn : n ≤ UINT_MAX) :
    ∃ o line, pipeline n = some o ∧ o.out = [line] ∧ o.fell_through = false ∧
      (line = .prime n ∨ (∃ f1 f2, line = .factors n f1 f2) ∨ line = .notProduct n) := by
  obtain ⟨T, -, hrun⟩ := pipeline_run h2 hn
  exact ⟨_, classify n, hrun, rfl, rfl, classify_is_classification n⟩

/-- C4 at `n = 35`. -/
theorem C4_witness_35 :
    (2 ≤ 35 ∧ 35 ≤ UINT_MAX) ∧
      ∃ o line, pipeline 35 = some o ∧ o.out = [line] ∧ o.fell_through = false ∧
        (line = .prime 35 ∨ (∃ f1 f2, line = .factors 35 f1 f2) ∨ line = .notProduct 35) :=
  ⟨⟨by decide, by decide⟩, C4_exactly_one_classification 35 (by decide) (by decide)⟩

/-- C5: for `n` in `[2, UINT_MAX]`, a two-factor line printed by the run of the
pipeline names `n` and factors with `factor1 ≤ factor2` and
`factor1 * factor2 = n` as exact integers. -/
theorem C5_factor_pair_sound (n : Nat) (o : Outcome) (m f1 f2 : Nat) (h2 : 2 ≤ n)
    (hn : n ≤ UINT_MAX) (hrun : pipeline n = some o) (hline : Line.factors m f1 f2 ∈ o.out) :
    m = n ∧ f1 ≤ f2 ∧ f1 * f2 = n := by
  obtain ⟨T, -, hrun'⟩ := pipeline_run h2 hn
  rw [hrun] at hrun'
  injection hrun' with ho
  subst ho
  simp only [List.mem_singleton] at hline
  exact classify_factors hline.symm

/-- C5 at `n = 35`, whose run prints `35 5 7`. -/
theorem C5_witness_35 :
    (2 ≤ 35 ∧ 35 ≤ UINT_MAX ∧
      pipeline 35 = some ⟨[.factors 35 5 7], .returned 3, 3, false⟩ ∧
      Line.factors 35 5 7 ∈ [Line.factors 35 5 7]) ∧
      (35 = 35 ∧ 5 ≤ 7 ∧ 5 * 7 = 35) :=
  ⟨⟨by decide, by decide, by decide, by simp⟩,
    C5_factor_pair_sound 35 ⟨[.factors 35 5 7], .returned 3, 3, false⟩ 35 5 7
      (by decide) (by decide) (by decide) (by simp)⟩

/-- C6, as stated, fails at `p = 3`: the controller obtains the count `1`
although no prime is at most the square root of `3`. -/
theorem C6_counterexample_three :
    Nat.Prime 3 ∧ pipeline 3 = some ⟨[.prime 3], .returned 1, 1, false⟩ ∧
      Nat.primeCounting (Nat.sqrt 3) = 0 := by
  refine ⟨Nat.prime_three, by decide, ?_⟩
  have hs : Nat.sqrt 3 = 1 := by
    symm
    rw [Nat.eq_sqrt]
    omega
  rw [hs]
  exact count_prime_two

/-- C6, amended: for a prime `p ≤ UINT_MAX` with fewer than 256 primes up to its
square root, the count the controller obtains from the pipeline is the number
of primes up to the square root of `p`, and `1` when there is none. -/
theorem C6_prime_filter_count (p : Nat) (hp : p.Prime) (hn : p ≤ UINT_MAX)
    (hsmall : Nat.primeCounting (Nat.sqrt p) < 256) :
    ∃ o, pipeline p = some o ∧
      o.ending = .returned (max 1 (Nat.primeCounting (Nat.sqrt p))) := by
  obtain ⟨T, hT, hrun⟩ := pipeline_run hp.two_le hn
  refine ⟨_, hrun, ?_⟩
  have hcount := prime_count_of_terminal hp hT
  have hlt : Nat.primeCounting T < 256 := by
    rw [hcount]
    omega
  show Ending.returned (Nat.primeCounting T % 256) = _
  rw [Nat.mod_eq_of_lt hlt, hcount]

/-- C6 at `p = 13`: the square root of `13` is `3`, and two primes are at most `3`. -/
theorem C6_witness_13 :
    (Nat.Prime 13 ∧ 13 ≤ UINT_MAX ∧ Nat.primeCounting (Nat.sqrt 13) < 256) ∧
      ∃ o, pipeline 13 = some o ∧
        o.ending = .returned (max 1 (Nat.primeCounting (Nat.sqrt 13))) := by
  have hs : Nat.sqrt 13 = 3 := by
    symm
    rw [Nat.eq_sqrt]
    omega
  have hc : Nat.primeCounting 3 = 2 := by
    show Nat.count Nat.Prime 4 = 2
    rw [Nat.count_succ, count_prime_three, if_pos Nat.prime_three]
  have hsmall : Nat.primeCounting (Nat.sqrt 13) < 256 := by
    rw [hs, hc]
    omega
  exact ⟨⟨by norm_num, by decide, hsmall⟩,
    C6_prime_filter_count 13 (by norm_num) (by decide) hsmall⟩

theorem prime_1619 : Nat.Prime 1619 := by norm_num

theorem prime_1621 : Nat.Prime 1621 := by norm_num

/-- C7 fails at `n = 2627641 = 1621 * 1621`: the run creates 256 stages, the
stage with divisor `2` exits with `256`, and the controller obtains `0`. -/
theorem C7_count_truncated :
    ∃ o, pipeline 2627641 = some o ∧ o.stages = 256 ∧ o.ending = .returned 0 := by
  obtain ⟨T, hT, hrun⟩ := pipeline_run (n := 2627641) (by omega) (by decide)
  obtain ⟨hst, -, hstop⟩ := hT
  have hTp := hst.1
  have hTT : T * T < 2627641 := by
    rcases hst.2 with h | h
    · subst h; omega
    · exact h
  have hT1 : T < 1621 := by
    by_contra hge
    have : 1621 * 1621 ≤ T * T := Nat.mul_le_mul (by omega) (by omega)
    omega
  have hall : ∀ c, c.Prime → T < c → 2627641 ≤ c * c := by
    rcases hstop with ⟨hdvd, -⟩ | h
    · exfalso
      have h1 : T ∣ 1621 * 1621 := hdvd
      have h2 : T ∣ 1621 := by
        rcases (Nat.Prime.dvd_mul hTp).mp h1 with h | h <;> exact h
      have := (Nat.prime_dvd_prime_iff_eq hTp prime_1621).mp h2
      omega
    · exact h
  have hT2 : T = 1619 ∨ T = 1620 := by
    by_contra hne
    have := hall 1619 prime_1619 (by omega)
    omega
  have hTeq : T = 1619 := by
    rcases hT2 with h | h
    · exact h
    · exfalso
      subst h
      have : ¬ Nat.Prime 1620 := by norm_num
      exact this hTp
  subst hTeq
  rw [primeCounting_1619] at hrun
  exact ⟨_, hrun, rfl, rfl⟩

/-- The condition `i <= n` of the root loop never fails for `n = UINT_MAX`: the
loop on `UINT_MAX` can only be left through a failed write
(`max_root_write_fails`). -/
theorem root_loop_wraps (fuel : Nat) :
    ∀ i, i < 4294967296 → (root_loop 4294967295 fuel i).2 = false ∧
      (root_loop 4294967295 fuel i).1.length = fuel := by
  induction fuel with
  | zero => intro i _; exact ⟨rfl, rfl⟩
  | succ k ih =>
    intro i hi
    have hle : i ≤ 4294967295 := by omega
    have hu : uinc i < 4294967296 := by unfold uinc; omega
    obtain ⟨h1, h2⟩ := ih (uinc i) hu
    simp only [root_loop_succ, hle, if_true, List.length_cons]
    exact ⟨h1, by rw [h2]⟩

/-- The root loop on a target below `UINT_MAX`: it writes `3, 4, ..., n` and ends. -/
theorem root_loop_ends (n : Nat) (hn : n < UINT_MAX) (fuel : Nat) :
    ∀ i, n + 1 - i < fuel → root_loop n fuel i = (List.range' i (n + 1 - i), true) := by
  unfold UINT_MAX at hn
  induction fuel with
  | zero => intro i h; omega
  | succ k ih =>
    intro i hfuel
    by_cases hin : i ≤ n
    · have hu : uinc i = i + 1 := by unfold uinc; omega
      have hlen : n + 1 - i = (n + 1 - (i + 1)) + 1 := by omega
      simp only [root_loop_succ, hin, if_true, hu]
      rw [ih (i + 1) (by omega), hlen, List.range'_succ]
    · have hlen : n + 1 - i = 0 := by omega
      simp only [root_loop_succ, hin, if_false, hlen]
      rfl

/-- C9, as stated, fails for an argument beyond the range of `long`: `strtol`
returns `LONG_MAX`, which exceeds `UINT_MAX`, and sets `ERANGE`, and `main`
prints the `strtol` diagnostic, not the usage message. -/
theorem C9_counterexample_erange :
    (UINT_MAX : Int) < 9223372036854775807 ∧
      main 2 9223372036854775807 true true = some (.aborted .strtol_range 1) :=
  ⟨by decide, by decide⟩

/-- C9, amended.  When `argc` is not `2`, that is, the argument count is not
one, `main` prints the usage message and exits with `1`.  With one argument: after a range
error of `strtol` it prints the `strtol` diagnostic and exits with `1`;
otherwise, for `v ≤ 1` or `v > UINT_MAX` it prints the usage message and exits
with `1`; otherwise, if `SIGPIPE` cannot be ignored it prints the `signal`
diagnostic and exits with `1`, and else it runs the pipeline on `v`.  Only in
this last case is `process_range` called. -/
theorem C9_main_validation (argc : Nat) (v : Int) (erange signal_ok : Bool) :
    (argc ≠ 2 → main argc v erange signal_ok = some (.aborted .usage 1)) ∧
    (argc = 2 → erange = true → main argc v erange signal_ok = some (.aborted .strtol_range 1)) ∧
    (argc = 2 → erange = false → (v ≤ 1 ∨ v > UINT_MAX) →
      main argc v erange signal_ok = some (.aborted .usage 1)) ∧
    (argc = 2 → erange = false → 1 < v → v ≤ UINT_MAX → signal_ok = false →
      main argc v erange signal_ok = some (.aborted .signal_failed 1)) ∧
    (argc = 2 → erange = false → 1 < v → v ≤ UINT_MAX → signal_ok = true →
      ∃ run stdout code, pipeline v.toNat = some run ∧
        main argc v erange signal_ok = some (.completed run stdout code)) := by
  refine ⟨?_, ?_, ?_, ?_, ?_⟩
  · intro h
    simp [main, h]
  · rintro rfl rfl
    simp [main]
  · rintro rfl rfl h
    simp [main, h]
  · rintro rfl rfl h1 h2 rfl
    have : ¬ (v ≤ 1 ∨ v > UINT_MAX) := by omega
    simp [main, this]
  · rintro rfl rfl h1 h2 rfl
    have hrange : ¬ (v ≤ 1 ∨ v > UINT_MAX) := by omega
    have hu : (UINT_MAX : Int) = 4294967295 := rfl
    have hcast : v.toNat % 4294967296 = v.toNat := by omega
    obtain ⟨T, -, hrun⟩ := pipeline_run (n := v.toNat) (by omega) (by unfold UINT_MAX; omega)
    refine ⟨_, [classify v.toNat] ++ [.filters (Nat.primeCounting T % 256)], 0, hrun, ?_⟩
    simp only [main, hrange, hcast, hrun]
    simp

/-- C9 at concrete inputs: no argument, the arguments `1`, `4294967296` and
`35`, and a failing `signal`. -/
theorem C9_witness :
    main 1 0 false true = some (.aborted .usage 1) ∧
    main 2 1 false true = some (.aborted .usage 1) ∧
    main 2 4294967296 false true = some (.aborted .usage 1) ∧
    main 2 35 false false = some (.aborted .signal_failed 1) ∧
    (∃ run stdout code, pipeline (35 : Int).toNat = some run ∧
      main 2 35 false true = some (.completed run stdout code)) :=
  ⟨(C9_main_validation 1 0 false true).1 (by decide),
    (C9_main_validation 2 1 false true).2.2.1 rfl rfl (by decide),
    (C9_main_validation 2 4294967296 false true).2.2.1 rfl rfl (by decide),
    (C9_main_validation 2 35 false false).2.2.2.1 rfl rfl (by decide) (by decide) rfl,
    (C9_main_validation 2 35 false true).2.2.2.2 rfl rfl (by decide) (by decide) rfl⟩

/-- C10, as stated, fails at `n = 2`: the filter count is `1` and `main`
returns `0`. -/
theorem C10_counterexample_two :
    main 2 2 false true =
      some (.completed ⟨[.prime 2], .returned 1, 1, false⟩ [.prime 2, .filters 1] 0) := by
  decide

/-- C10, amended: for `n` in `[2, UINT_MAX]` the exit code of `main` after the
pipeline completes is `0`; the number of stages modulo 256 is the value
`process_range` returns to `main`, which prints it in the filter line after the
classification. -/
theorem C10_exit_code_zero (n : Nat) (h2 : 2 ≤ n) (hn : n ≤ UINT_MAX) :
    ∃ run, pipeline n = some run ∧ run.ending = .returned (run.stages % 256) ∧
      main 2 (n : Int) false true =
        some (.completed run (run.out ++ [.filters (run.stages % 256)]) 0) := by
  obtain ⟨T, -, hrun⟩ := pipeline_run h2 hn
  refine ⟨_, hrun, rfl, ?_⟩
  have hu : (UINT_MAX : Int) = 4294967295 := rfl
  have hn' : n ≤ 4294967295 := hn
  have hrange : ¬ ((n : Int) ≤ 1 ∨ (n : Int) > UINT_MAX) := by omega
  have hcast : (n : Int).toNat % 4294967296 = n := by omega
  simp only [main, hrange, hcast, hrun]
  simp

/-- C10 at `n = 35`. -/
theorem C10_witness_35 :
    (2 ≤ 35 ∧ 35 ≤ UINT_MAX) ∧
      ∃ run, pipeline 35 = some run ∧ run.ending = .returned (run.stages % 256) ∧
        main 2 ((35 : Nat) : Int) false true =
          some (.completed run (run.out ++ [.filters (run.stages % 256)]) 0) :=
  ⟨⟨by decide, by decide⟩, C10_exit_code_zero 35 (by decide) (by decide)⟩

/-! The stages of a run -/

theorem process_range_child {n k m d f : Nat} {fd_in : Option (List Nat)} {o : Outcome}
    (h : process_range n (k + 1) m d f fd_in = some o) :
    ∃ child, child_branch n d f (new_pipe n m d fd_in)
        (fun factor2 factor rest => process_range n k d factor2 factor (some rest)) =
          some child ∧ o.stages = child.stages + 1 := by
  cases fd_in with
  | none =>
    simp only [process_range] at h
    simp only [new_pipe]
    split at h
    · cases h
    · next child hchild =>
      simp only [Option.some.injEq] at h
      exact ⟨child, hchild, by rw [← h]⟩
  | some inp =>
    simp only [process_range] at h
    simp only [new_pipe]
    split at h
    · cases h
    · next child hchild =>
      simp only [Option.some.injEq] at h
      exact ⟨child, hchild, by rw [← h]⟩

theorem stage_trace_length (n fuel : Nat) :
    ∀ m d f fd_in o, process_range n fuel m d f fd_in = some o →
      (stage_trace n fuel m d f fd_in).length = o.stages := by
  induction fuel with
  | zero =>
    intro m d f fd_in o h
    simp [process_range] at h
  | succ k ih =>
    intro m d f fd_in o h
    obtain ⟨child, hchild, hstages⟩ := process_range_child h
    simp only [stage_trace, List.length_cons]
    rw [hstages]
    congr 1
    unfold child_branch at hchild
    cases hdc : divisor_check n d f with
    | inl line =>
      rw [hdc] at hchild
      simp only [Option.some.injEq] at hchild
      rw [← hchild]
      rfl
    | inr g =>
      rw [hdc] at hchild
      simp only at hchild ⊢
      cases hnc : next_candidate d (new_pipe n m d fd_in) with
      | none =>
        rw [hnc] at hchild
        simp only [Option.some.injEq] at hchild
        rw [← hchild]
        rfl
      | some pr =>
        obtain ⟨c, rest⟩ := pr
        rw [hnc] at hchild
        simp only at hchild ⊢
        by_cases hsq : below_sqrt c n = true
        · rw [if_pos hsq] at hchild
          rw [if_pos hsq]
          exact ih d c g (some rest) child hchild
        · rw [if_neg hsq] at hchild
          rw [if_neg hsq]
          by_cases hg : g ≠ 0
          · rw [if_pos hg] at hchild
            cases hfs : factor_search n d g c rest with
            | none =>
              rw [hfs] at hchild
              simp only [Option.some.injEq] at hchild
              rw [← hchild]; rfl
            | some found =>
              rw [hfs] at hchild
              simp only [Option.some.injEq] at hchild
              rw [← hchild]; rfl
          · rw [if_neg hg] at hchild
            by_cases hum : umul c c = n
            · rw [if_pos hum] at hchild
              simp only [Option.some.injEq] at hchild
              rw [← hchild]; rfl
            · rw [if_neg hum] at hchild
              simp only [Option.some.injEq] at hchild
              rw [← hchild]; rfl

theorem stage_trace_inv {n : Nat} (h2 : 2 ≤ n) (fuel : Nat) :
    ∀ m d f fd_in j, StageOK n d → FactorInv n d f →
      Sieved n d (readable (new_pipe n m d fd_in)) → Nat.count Nat.Prime d = j →
      ∀ k s, (stage_trace n fuel m d f fd_in)[k]? = some s →
        Nat.count Nat.Prime s.m_next = j + k ∧ StageOK n s.m_next ∧
          FactorInv n s.m_next s.factor ∧ Sieved n s.m_next (readable s.fd) ∧
          ((fd_in.isSome ∨ 0 < k) → readable s.fd = s.fd) := by
  induction fuel with
  | zero =>
    intro m d f fd_in j _ _ _ _ k s hs
    simp [stage_trace] at hs
  | succ i ih =>
    intro m d f fd_in j hst hf hsv hcount k s hs
    have hd := hst.1
    rw [stage_trace] at hs
    cases k with
    | zero =>
      rw [List.getElem?_cons_zero] at hs
      injection hs with hs
      subst hs
      refine ⟨hcount, hst, hf, hsv, ?_⟩
      intro h
      rcases h with h | h
      · cases fd_in with
        | none => simp at h
        | some inp => exact readable_forward m inp
      · omega
    | succ k' =>
      rw [List.getElem?_cons_succ] at hs
      cases hdc : divisor_check n d f with
      | inl line =>
        rw [hdc] at hs
        simp at hs
      | inr g =>
        rw [hdc] at hs
        simp only at hs
        obtain ⟨-, hg⟩ := divisor_check_inr h2 hst hf hdc
        cases hnc : next_candidate d (new_pipe n m d fd_in) with
        | none =>
          rw [hnc] at hs
          simp at hs
        | some pr =>
          obtain ⟨c, rest⟩ := pr
          rw [hnc] at hs
          simp only at hs
          obtain ⟨skipped, hsplit, hsk, hcd⟩ := next_candidate_some hnc
          rw [hsplit] at hsv
          obtain ⟨hnp, -⟩ := candidate_next_prime hd hsv hsk hcd
          by_cases hsq : c * c < n
          · have hb : below_sqrt c n = true := by simp [below_sqrt, hsq]
            rw [if_pos hb] at hs
            have hsv' : Sieved n c (readable (new_pipe n d c (some rest))) := by
              show Sieved n c (readable (forward d rest))
              rw [readable_forward, forward_eq_filter]
              exact sieved_forward hd hsv hnp
            have hcount' : Nat.count Nat.Prime c = j + 1 := by
              rw [count_next_prime hd hnp, hcount]
            obtain ⟨h1, h3, h4, h5, h6⟩ :=
              ih d c g (some rest) (j + 1) ⟨hnp.1, Or.inr hsq⟩ (hg c hnp) hsv' hcount' k' s hs
            refine ⟨by omega, h3, h4, h5, ?_⟩
            intro _
            exact h6 (Or.inl rfl)
          · have hb : ¬ below_sqrt c n = true := by simp [below_sqrt, hsq]
            rw [if_neg hb] at hs
            simp at hs

theorem pipeline_trace_inv {n : Nat} (h2 : 2 ≤ n) (hn : n ≤ UINT_MAX) :
    ∀ k s, (pipeline_trace n)[k]? = some s →
      Nat.count Nat.Prime s.m_next = k ∧ StageOK n s.m_next ∧
        FactorInv n s.m_next s.factor ∧ Sieved n s.m_next (readable s.fd) ∧
        (0 < k → readable s.fd = s.fd) := by
  intro k s hs
  have hst : StageOK n 2 := ⟨Nat.prime_two, Or.inl rfl⟩
  have hf : FactorInv n 2 0 := by
    refine Or.inl ⟨rfl, ?_⟩
    intro q hq hq2
    have := hq.two_le
    omega
  have hsv : Sieved n 2 (readable (new_pipe n UINT_MAX 2 none)) := by
    show Sieved n 2 (readable (root_loop n n (uinc 2)).1)
    rw [readable_root_channel n h2 hn]
    exact sieved_root n h2
  obtain ⟨h1, h3, h4, h5, h6⟩ :=
    stage_trace_inv h2 n UINT_MAX 2 0 none 0 hst hf hsv count_prime_two k s hs
  refine ⟨by omega, h3, h4, h5, ?_⟩
  intro hk
  exact h6 (Or.inr hk)

theorem pipeline_trace_mem {n : Nat} (h2 : 2 ≤ n) (hn : n ≤ UINT_MAX) {s : Stage}
    (hs : s ∈ pipeline_trace n) :
    StageOK n s.m_next ∧ FactorInv n s.m_next s.factor ∧ Sieved n s.m_next (readable s.fd) := by
  obtain ⟨k, hk⟩ := List.mem_iff_getElem?.mp hs
  obtain ⟨-, h3, h4, h5, -⟩ := pipeline_trace_inv h2 hn k s hk
  exact ⟨h3, h4, h5⟩

/-- The trace lists the stages of the run: its length is the stage count of the
outcome of `pipeline`. -/
theorem pipeline_trace_length {n : Nat} {o : Outcome} (h : pipeline n = some o) :
    (pipeline_trace n).length = o.stages :=
  stage_trace_length n n UINT_MAX 2 0 none o h

/-! The remaining properties of the specification -/

theorem classify_2147483648 : classify 2147483648 = .notProduct 2147483648 := by
  have h1 : ¬ Nat.Prime 2147483648 := by norm_num
  have h2 : Nat.minFac 2147483648 = 2 := by norm_num
  have h3 : ¬ Nat.Prime (2147483648 / 2) := by norm_num
  simp [classify, h1, h2, h3]

/-- For an argument below `2^31` the conversion `%d` prints the decimal numeral. -/
theorem print_d_small {v : Nat} (hv : v < 2147483648) : print_d v = Nat.repr v := by
  simp [print_d, hv]

/-- C11 fails at `n = 2147483648 = 2^31`: the classification line of the run
starts with `-2147483648`, not with the numeral of `n`. -/
theorem C11_negative_numeral :
    Nat.repr 2147483648 = "2147483648" ∧
      ∃ o, pipeline 2147483648 = some o ∧
        o.out.map render = ["-2147483648 is not the product of two primes\n"] := by
  refine ⟨by decide, ?_⟩
  obtain ⟨T, -, hrun⟩ := pipeline_run (n := 2147483648) (by omega) (by decide)
  refine ⟨_, hrun, ?_⟩
  rw [classify_2147483648]
  show List.map render [Line.notProduct 2147483648] = _
  decide

/-- The run of `main` on an admissible argument: the lines of the pipeline, the
filter line with the value `process_range` returned, and exit code `0`. -/
theorem main_completes {n : Nat} (h2 : 2 ≤ n) (hn : n ≤ UINT_MAX) :
    ∃ run, pipeline n = some run ∧ run.ending = .returned (run.stages % 256) ∧
      main 2 (n : Int) false true =
        some (.completed run (run.out ++ [.filters (run.stages % 256)]) 0) := by
  obtain ⟨T, -, hrun⟩ := pipeline_run h2 hn
  refine ⟨_, hrun, rfl, ?_⟩
  have hu : (UINT_MAX : Int) = 4294967295 := rfl
  have hn' : n ≤ 4294967295 := hn
  have hrange : ¬ ((n : Int) ≤ 1 ∨ (n : Int) > UINT_MAX) := by omega
  have hcast : (n : Int).toNat % 4294967296 = n := by omega
  simp only [main, hrange, hcast, hrun]
  simp

/-- C12, as stated, fails at `n = 2`: the line after the classification is
`Number of filters = 1`, without the word `used`. -/
theorem C12_counterexample_two :
    (∃ run, main 2 2 false true =
        some (.completed run [.prime 2, .filters 1] 0)) ∧
      [Line.prime 2, Line.filters 1].map render = ["2 is prime\n", "Number of filters = 1\n"] ∧
      render (.filters 1) ≠ "Number of filters used = " ++ Nat.repr 1 ++ "\n" := by
  refine ⟨⟨⟨[.prime 2], .returned 1, 1, false⟩, by decide⟩, by decide, by decide⟩

/-- C12, amended: for `n` in `[2, UINT_MAX]` the last line `main` prints, after
the lines of the pipeline, is the text `Number of filters = ` followed by the
decimal numeral of the value `process_range` returned and a newline. -/
theorem C12_filter_line_text (n : Nat) (h2 : 2 ≤ n) (hn : n ≤ UINT_MAX) :
    ∃ run value, pipeline n = some run ∧ run.ending = .returned value ∧
      main 2 (n : Int) false true =
        some (.completed run (run.out ++ [.filters value]) 0) ∧
      render (.filters value) = "Number of filters = " ++ Nat.repr value ++ "\n" := by
  obtain ⟨run, hrun, hend, hmain⟩ := main_completes h2 hn
  refine ⟨run, run.stages % 256, hrun, hend, hmain, ?_⟩
  have hlt : run.stages % 256 < 2147483648 := by omega
  simp [render, print_d_small hlt]

/-- C12 at `n = 35`. -/
theorem C12_witness_35 :
    (2 ≤ 35 ∧ 35 ≤ UINT_MAX) ∧
      ∃ run value, pipeline 35 = some run ∧ run.ending = .returned value ∧
        main 2 ((35 : Nat) : Int) false true =
          some (.completed run (run.out ++ [.filters value]) 0) ∧
        render (.filters value) = "Number of filters = " ++ Nat.repr value ++ "\n" :=
  ⟨⟨by decide, by decide⟩, C12_filter_line_text 35 (by decide) (by decide)⟩

/-- C15 fails when `pipe` fails and `fork` succeeds: the process prints the
`pipe` message and goes on, in the parent branch in the calling process and in
the child branch in the forked stage; only a failing `fork` leads to `exit(1)`. -/
theorem C15_pipe_failure_not_fatal :
    process_range_start (-1) 4711 = ([.pipe], .parent 4711) ∧
      process_range_start (-1) 0 = ([.pipe], .child) ∧
      (∀ pipe_ret fork_ret, fork_ret < 0 →
        (process_range_start pipe_ret fork_ret).2 = .aborted 1 ∧
          Report.fork ∈ (process_range_start pipe_ret fork_ret).1) := by
  refine ⟨by decide, by decide, ?_⟩
  intro pipe_ret fork_ret h
  have h1 : ¬ fork_ret > 0 := by omega
  have h2 : ¬ fork_ret = 0 := by omega
  simp [process_range_start, h1, h2]

theorem count_congr_below {p q : Nat → Prop} [DecidablePred p] [DecidablePred q] (k : Nat)
    (h : ∀ i, i < k → (p i ↔ q i)) : Nat.count p k = Nat.count q k := by
  induction k with
  | zero => rfl
  | succ j ih =>
    rw [Nat.count_succ, Nat.count_succ, ih (fun i hi => h i (by omega))]
    by_cases hp : p j
    · rw [if_pos hp, if_pos ((h j (by omega)).mp hp)]
    · rw [if_neg hp, if_neg (fun hq => hp ((h j (by omega)).mpr hq))]

theorem primeCounting_le_below_sqrt {n T : Nat} (hT : StageOK n T) :
    Nat.primeCounting T ≤ primes_below_sqrt n + 1 := by
  have hT2 := hT.1.two_le
  by_cases hsq : T * T < n
  · have h1 : Nat.count Nat.Prime (T + 1) =
        Nat.count (fun q => q.Prime ∧ q * q < n) (T + 1) := by
      apply count_congr_below
      intro i hi
      constructor
      · intro hp
        have : i * i ≤ T * T := Nat.mul_le_mul (by omega) (by omega)
        exact ⟨hp, by omega⟩
      · exact fun h => h.1
    have h3 : T + 1 ≤ n := by
      have : T * 2 ≤ T * T := Nat.mul_le_mul_left T hT2
      omega
    have h4 : Nat.count (fun q => q.Prime ∧ q * q < n) (T + 1) ≤
        Nat.count (fun q => q.Prime ∧ q * q < n) n := Nat.count_monotone _ h3
    show Nat.count Nat.Prime (T + 1) ≤ primes_below_sqrt n + 1
    unfold primes_below_sqrt
    omega
  · have hT' : T = 2 := by
      rcases hT.2 with h | h
      · exact h
      · exact absurd h hsq
    subst hT'
    have h1 : Nat.primeCounting 2 = 1 := count_prime_three
    omega

/-- C16: for `n` in `[2, UINT_MAX]` the number of stages created in the run is at
most the number of primes strictly below the square root of `n`, plus one. -/
theorem C16_stage_bound (n : Nat) (h2 : 2 ≤ n) (hn : n ≤ UINT_MAX) :
    ∃ o, pipeline n = some o ∧ o.stages = (pipeline_trace n).length ∧
      o.stages ≤ primes_below_sqrt n + 1 := by
  obtain ⟨T, hT, hrun⟩ := pipeline_run h2 hn
  exact ⟨_, hrun, (pipeline_trace_length hrun).symm, primeCounting_le_below_sqrt hT.1⟩

/-- C16 at `n = 35`: three stages, and two primes below the square root. -/
theorem C16_witness_35 :
    (2 ≤ 35 ∧ 35 ≤ UINT_MAX) ∧
      ∃ o, pipeline 35 = some o ∧ o.stages = (pipeline_trace 35).length ∧
        o.stages ≤ primes_below_sqrt 35 + 1 :=
  ⟨⟨by decide, by decide⟩, C16_stage_bound 35 (by decide) (by decide)⟩

theorem find_none_iff {l : List Nat} {p : Nat → Prop} [DecidablePred p] :
    l.find? (fun x => decide (p x)) = none ↔ ∀ x ∈ l, ¬ p x := by
  rw [List.find?_eq_none]
  simp

theorem find_first {l pre post : List Nat} {p : Nat → Prop} [DecidablePred p] {b : Nat}
    (hl : l = pre ++ b :: post) (hpre : ∀ x ∈ pre, ¬ p x) (hb : p b) :
    l.find? (fun x => decide (p x)) = some b := by
  subst hl
  induction pre with
  | nil => simp [List.find?_cons, hb]
  | cons a tl ih =>
    have ha : ¬ p a := hpre a (List.mem_cons_self _ _)
    rw [List.cons_append, List.find?_cons]
    simp only [ha, decide_False]
    exact ih (fun x hx => hpre x (List.mem_cons_of_mem _ hx))

/-- C17: a stage with divisor `m_next` whose factor after the divisor check is
`f ≠ 0` and whose first candidate `c` is not below the square root of `n` ends
with one classification line.  With the scanned values `c :: readable rest`
(the candidate and then the rest of the pipe up to its end) and the 32-bit
test `f * x == n`: the line is the pair `(f, c')` for the first scanned `c'`
that is not a multiple of `m_next` and passes the test, and it is `not the
product of two primes` exactly when no scanned value does. -/
theorem C17_factor_search (n m_next factor f c : Nat) (fd0 rest : List Nat)
    (spawn : Nat → Nat → List Nat → Option Outcome)
    (hcheck : divisor_check n m_next factor = .inr f) (hf : f ≠ 0)
    (hcand : next_candidate m_next fd0 = some (c, rest)) (hsqrt : below_sqrt c n = false) :
    ∃ line, child_branch n m_next factor fd0 spawn = some ⟨[line], .exited 1, 0, false⟩ ∧
      (∀ pre c' post, c :: readable rest = pre ++ c' :: post →
        (∀ x ∈ pre, ¬ (x % m_next ≠ 0 ∧ umul f x = n)) →
        c' % m_next ≠ 0 → umul f c' = n → line = .factors n f c') ∧
      (line = .notProduct n ↔
        ∀ x ∈ c :: readable rest, ¬ (x % m_next ≠ 0 ∧ umul f x = n)) := by
  have hfind := factor_search_eq_find n m_next f c rest
  cases hfs : factor_search n m_next f c rest with
  | none =>
    rw [hfs] at hfind
    have hnone := find_none_iff.mp hfind.symm
    refine ⟨.notProduct n, ?_, ?_, ?_⟩
    · simp [child_branch, hcheck, hcand, hsqrt, hf, hfs]
    · intro pre c' post hsplit _ hc1 hc2
      exfalso
      exact hnone c' (by rw [hsplit]; simp) ⟨hc1, hc2⟩
    · exact ⟨fun _ => hnone, fun _ => rfl⟩
  | some found =>
    rw [hfs] at hfind
    refine ⟨.factors n f found, ?_, ?_, ?_⟩
    · simp [child_branch, hcheck, hcand, hsqrt, hf, hfs]
    · intro pre c' post hsplit hpre hc1 hc2
      have := find_first hsplit hpre ⟨hc1, hc2⟩
      rw [this] at hfind
      injection hfind with hfind
      rw [hfind]
    · constructor
      · intro h
        cases h
      · intro hnone
        exfalso
        have hmem := List.mem_of_find?_eq_some hfind.symm
        have hp := List.find?_some hfind.symm
        simp only [decide_eq_true_eq] at hp
        exact hnone found hmem hp

/-- C17 at the stage with divisor `3` of the run on `21`: the scan starts at `5`
and stops at `7`. -/
theorem C17_witness_21 :
    (divisor_check 21 3 0 = .inr 3 ∧ 3 ≠ 0 ∧
      next_candidate 3 [5, 7, 9, 11, 13, 15, 17, 19, 21] =
        some (5, [7, 9, 11, 13, 15, 17, 19, 21]) ∧
      below_sqrt 5 21 = false) ∧
    ∃ line, child_branch 21 3 0 [5, 7, 9, 11, 13, 15, 17, 19, 21] (fun _ _ _ => none) =
        some ⟨[line], .exited 1, 0, false⟩ ∧
      (∀ pre c' post, 5 :: readable [7, 9, 11, 13, 15, 17, 19, 21] = pre ++ c' :: post →
        (∀ x ∈ pre, ¬ (x % 3 ≠ 0 ∧ umul 3 x = 21)) →
        c' % 3 ≠ 0 → umul 3 c' = 21 → line = .factors 21 3 c') ∧
      (line = .notProduct 21 ↔
        ∀ x ∈ 5 :: readable [7, 9, 11, 13, 15, 17, 19, 21], ¬ (x % 3 ≠ 0 ∧ umul 3 x = 21)) :=
  ⟨⟨by decide, by decide, by decide, by decide⟩,
    C17_factor_search 21 3 0 3 5 [5, 7, 9, 11, 13, 15, 17, 19, 21]
      [7, 9, 11, 13, 15, 17, 19, 21] (fun _ _ _ => none)
      (by decide) (by decide) (by decide) (by decide)⟩

theorem pipeline_trace_head {n : Nat} {s : Stage} (hs : (pipeline_trace n)[0]? = some s) :
    s.fd = new_pipe n UINT_MAX 2 none := by
  unfold pipeline_trace at hs
  cases n with
  | zero => simp [stage_trace] at hs
  | succ k =>
    rw [stage_trace, List.getElem?_cons_zero] at hs
    injection hs with hs
    rw [← hs]

/-- A forwarding stage never writes `0`. -/
theorem forward_never_zero (m : Nat) (inp : List Nat) : 0 ∉ forward m inp := by
  rw [forward_eq_filter]
  intro h
  exact zero_not_mem_readable inp (List.mem_filter.mp h).1

/-- For a target below `UINT_MAX` the controller writes values of `[3, n]` only. -/
theorem root_values_in_range (n : Nat) (hn : n < UINT_MAX) :
    ∀ x ∈ new_pipe n UINT_MAX 2 none, 3 ≤ x ∧ x ≤ n := by
  intro x hx
  have h : new_pipe n UINT_MAX 2 none = (root_loop n n 3).1 := rfl
  rw [h] at hx
  by_cases h2 : 2 ≤ n
  · rw [root_loop_ends n hn n 3 (by omega)] at hx
    rw [List.mem_range'_1] at hx
    omega
  · have hcases : n = 0 ∨ n = 1 := by omega
    rcases hcases with rfl | rfl <;> simp [root_loop_zero, root_loop_succ] at hx

/-- The stages of the run on `35`, evaluated. -/
theorem pipeline_trace_35 :
    pipeline_trace 35 =
      [⟨2, 0, List.range' 3 33⟩,
        ⟨3, 0, [5, 7, 9, 11, 13, 15, 17, 19, 21, 23, 25, 27, 29, 31, 33, 35]⟩,
        ⟨5, 0, [7, 11, 13, 17, 19, 23, 25, 29, 31, 35]⟩] := by
  decide

/-- The stages of the run on `30`, evaluated. -/
theorem pipeline_trace_30 :
    pipeline_trace 30 =
      [⟨2, 0, List.range' 3 28⟩,
        ⟨3, 2, [5, 7, 9, 11, 13, 15, 17, 19, 21, 23, 25, 27, 29]⟩] := by
  decide

/-- C19: for `n` in `[2, UINT_MAX]`, a stage of the run whose divisor divides `n`
while a factor is already set has `factor * m_next < n`; the test
`factor * m_next == n` fails and the divisor check prints `not the product of
two primes`. -/
theorem C19_second_divisor_never_completes (n : Nat) (s : Stage) (h2 : 2 ≤ n)
    (hn : n ≤ UINT_MAX) (hs : s ∈ pipeline_trace n) (hdvd : n % s.m_next = 0)
    (hset : s.factor ≠ 0) :
    s.factor * s.m_next < n ∧ umul s.factor s.m_next ≠ n ∧
      divisor_check n s.m_next s.factor = .inl (.notProduct n) := by
  obtain ⟨hst, hf, -⟩ := pipeline_trace_mem h2 hn hs
  obtain ⟨hfm, hfd, hff, -⟩ := factorInv_set hf hset
  have hf2 : 2 ≤ s.factor := hfm ▸ minFac_two_le h2
  have hdd : s.m_next * s.m_next < n := by
    rcases hst.2 with h | h
    · omega
    · exact h
  have hlt : s.factor * s.m_next < s.m_next * s.m_next :=
    Nat.mul_lt_mul_of_pos_right hfd (by omega)
  have hn' : n ≤ 4294967295 := hn
  have hum : umul s.factor s.m_next = s.factor * s.m_next := by unfold umul; omega
  have hne : umul s.factor s.m_next ≠ n := by rw [hum]; omega
  refine ⟨by omega, hne, ?_⟩
  simp [divisor_check, hdvd, hset, hne]

/-- C19 at the stage with divisor `3` of the run on `30`, entered with factor `2`. -/
theorem C19_witness_30 :
    (2 ≤ 30 ∧ 30 ≤ UINT_MAX ∧
      (⟨3, 2, [5, 7, 9, 11, 13, 15, 17, 19, 21, 23, 25, 27, 29]⟩ : Stage) ∈ pipeline_trace 30 ∧
      30 % 3 = 0 ∧ 2 ≠ 0) ∧
    (2 * 3 < 30 ∧ umul 2 3 ≠ 30 ∧ divisor_check 30 3 2 = .inl (.notProduct 30)) :=
  ⟨⟨by decide, by decide, by decide, by decide, by decide⟩,
    C19_second_divisor_never_completes 30
      ⟨3, 2, [5, 7, 9, 11, 13, 15, 17, 19, 21, 23, 25, 27, 29]⟩
      (by decide) (by decide) (by decide) (by decide) (by decide)⟩

theorem umul_exact {a b n : Nat} (h : a * b < 4294967296) : umul a b = n ↔ a * b = n := by
  unfold umul
  rw [Nat.mod_eq_of_lt h]

theorem search_comparisons_mem (n m f : Nat) (rest : List Nat) :
    ∀ c ab, ab ∈ search_comparisons n m f c rest → ab.1 = f ∧ ab.2 ∈ c :: readable rest := by
  induction rest with
  | nil =>
    intro c ab h
    unfold search_comparisons at h
    split at h
    · rw [List.mem_singleton] at h
      subst h
      exact ⟨rfl, List.mem_cons_self _ _⟩
    · cases h
  | cons v tl ih =>
    intro c ab h
    unfold search_comparisons at h
    split at h
    · rw [List.mem_singleton] at h
      subst h
      exact ⟨rfl, List.mem_cons_self _ _⟩
    · rcases List.mem_append.mp h with h1 | h1
      · split at h1
        · rw [List.mem_singleton] at h1
          subst h1
          exact ⟨rfl, List.mem_cons_self _ _⟩
        · cases h1
      · split at h1
        · cases h1
        · next hv =>
          obtain ⟨h3, h4⟩ := ih v ab h1
          refine ⟨h3, List.mem_cons_of_mem _ ?_⟩
          rw [readable_cons_pos hv]
          exact h4

theorem unset_not_prime_square {n d c : Nat} (h2 : 2 ≤ n) (hnp : NextPrime d c)
    (hf : FactorInv n c 0) (hsq : ¬ c * c < n) (hprime : ¬ n.Prime) : c * c = n := by
  have hnone := factorInv_unset h2 hf
  have hqp : n.minFac.Prime := Nat.minFac_prime (by omega)
  have hqsq : n.minFac ^ 2 ≤ n := Nat.minFac_sq_le_self (by omega) hprime
  have hcq : c ≤ n.minFac := by
    by_contra hlt
    exact hnone _ hqp (by omega) (Nat.minFac_dvd n)
  have h1 : c * c ≤ n.minFac ^ 2 := by
    rw [sq]; exact Nat.mul_le_mul hcq hcq
  have := hnp.1
  omega

theorem stage_comparisons_exact {n : Nat} {s : Stage} (h2 : 2 ≤ n) (hn : n ≤ UINT_MAX)
    (hst : StageOK n s.m_next) (hf : FactorInv n s.m_next s.factor)
    (hsv : Sieved n s.m_next (readable s.fd)) :
    ∀ ab ∈ stage_comparisons n s, (umul ab.1 ab.2 = n ↔ ab.1 * ab.2 = n) := by
  have hn' : n ≤ 4294967295 := hn
  have hd := hst.1
  have hd2 := hd.two_le
  intro ab hab
  unfold stage_comparisons at hab
  rcases List.mem_append.mp hab with h | h
  · split at h
    · split at h
      · next hset =>
        rw [List.mem_singleton] at h
        subst h
        obtain ⟨hfm, hfd, hff, -⟩ := factorInv_set hf hset
        have hf2 : 2 ≤ s.factor := hfm ▸ minFac_two_le h2
        have hdd : s.m_next * s.m_next < n := by
          rcases hst.2 with h' | h'
          · omega
          · exact h'
        have hlt : s.factor * s.m_next < s.m_next * s.m_next :=
          Nat.mul_lt_mul_of_pos_right hfd (by omega)
        exact umul_exact (by show s.factor * s.m_next < 4294967296; omega)
      · rw [List.mem_singleton] at h
        subst h
        apply umul_exact
        show s.m_next * s.m_next < 4294967296
        rcases hst.2 with h' | h'
        · rw [h']; omega
        · omega
    · cases h
  · cases hdc : divisor_check n s.m_next s.factor with
    | inl line =>
      rw [hdc] at h
      cases h
    | inr g =>
      rw [hdc] at h
      simp only at h
      obtain ⟨-, hg⟩ := divisor_check_inr h2 hst hf hdc
      cases hnc : next_candidate s.m_next s.fd with
      | none =>
        rw [hnc] at h
        cases h
      | some pr =>
        obtain ⟨c, rest⟩ := pr
        rw [hnc] at h
        simp only at h
        obtain ⟨skipped, hsplit, hsk, hcd⟩ := next_candidate_some hnc
        rw [hsplit] at hsv
        obtain ⟨hnp, hcn⟩ := candidate_next_prime hd hsv hsk hcd
        have hgc := hg c hnp
        by_cases hsq : c * c < n
        · have hb : below_sqrt c n = true := by simp [below_sqrt, hsq]
          rw [if_pos hb] at h
          cases h
        · have hb : ¬ below_sqrt c n = true := by simp [below_sqrt, hsq]
          rw [if_neg hb] at h
          by_cases hg0 : g = 0
          · subst hg0
            rw [if_neg (by simp)] at h
            rw [List.mem_singleton] at h
            subst h
            show umul c c = n ↔ c * c = n
            by_cases hprime : n.Prime
            · have h1 := square_no_wrap hn hst hnp hprime
              have h3 := prime_not_square hprime hnp.1
              exact ⟨fun h' => absurd h' h1, fun h' => absurd h'.symm h3⟩
            · have heq := unset_not_prime_square h2 hnp hgc hsq hprime
              exact umul_exact (by omega)
          · rw [if_pos hg0] at h
            obtain ⟨h1, hmem⟩ := search_comparisons_mem n s.m_next g rest c ab h
            obtain ⟨hfm, -, -, -⟩ := factorInv_set hgc hg0
            have hgp : g.Prime := hfm ▸ Nat.minFac_prime (by omega)
            have hnf : g * (n / g) = n := Nat.mul_div_cancel' (hfm ▸ Nat.minFac_dvd n)
            have hx : ab.2 ≤ n := by
              have : ab.2 ∈ skipped ++ c :: readable rest := List.mem_append_right _ hmem
              exact ((hsv.2 _).mp this).2.1
            rw [h1, umul_eq_iff hgp hnf hn hx]
            constructor
            · intro h'
              rw [h']
              exact hnf
            · intro h'
              exact Nat.eq_of_mul_eq_mul_left hgp.pos (h'.trans hnf.symm)

/-- C20: for `n` in `[2, UINT_MAX]`, for every product that a stage of the run
compares with `n` (`factor * m_next`, `m_next * m_next`, `factor * factor2`,
`factor2 * factor2`), the 32-bit product equals `n` exactly when the product of
the integers does. -/
theorem C20_no_false_match (n : Nat) (s : Stage) (a b : Nat) (h2 : 2 ≤ n)
    (hn : n ≤ UINT_MAX) (hs : s ∈ pipeline_trace n) (hab : (a, b) ∈ stage_comparisons n s) :
    umul a b = n ↔ a * b = n := by
  obtain ⟨hst, hf, hsv⟩ := pipeline_trace_mem h2 hn hs
  exact stage_comparisons_exact h2 hn hst hf hsv (a, b) hab

/-- C20 at the last stage of the run on `35`, which compares `5 * 5` and `5 * 7`. -/
theorem C20_witness_35 :
    (2 ≤ 35 ∧ 35 ≤ UINT_MAX ∧
      (⟨5, 0, [7, 11, 13, 17, 19, 23, 25, 29, 31, 35]⟩ : Stage) ∈ pipeline_trace 35 ∧
      (5, 7) ∈ stage_comparisons 35 ⟨5, 0, [7, 11, 13, 17, 19, 23, 25, 29, 31, 35]⟩) ∧
    (umul 5 7 = 35 ↔ 5 * 7 = 35) :=
  ⟨⟨by decide, by decide, by decide, by decide⟩,
    C20_no_false_match 35 ⟨5, 0, [7, 11, 13, 17, 19, 23, 25, 29, 31, 35]⟩ 5 7
      (by decide) (by decide) (by decide) (by decide)⟩

/-! Writes that fail -/

theorem forward_writes_none (m : Nat) (inp : List Nat) :
    forward_writes m none inp = forward m inp := rfl

theorem forward_writes_initial (m : Nat) (inp : List Nat) :
    ∀ ok, forward_writes m ok inp <+: forward m inp := by
  induction inp with
  | nil => intro ok; exact List.prefix_refl _
  | cons i rest ih =>
    intro ok
    rw [forward_cons]
    unfold forward_writes
    by_cases h0 : i = 0
    · simp [h0]
    · by_cases hm : i % m = 0
      · simp only [h0, hm, if_false, ne_eq, not_true_eq_false]
        exact ih ok
      · simp only [h0, hm, if_false, ne_eq, not_false_eq_true, if_true]
        cases ok with
        | none => exact (List.prefix_cons_inj i).mpr (ih none)
        | some k =>
          cases k with
          | zero => exact List.nil_prefix
          | succ j => exact (List.prefix_cons_inj i).mpr (ih (some j))

theorem forward_writes_never_zero (m : Nat) (ok : Option Nat) (inp : List Nat) :
    0 ∉ forward_writes m ok inp :=
  fun h => forward_never_zero m inp ((forward_writes_initial m inp ok).subset h)

theorem readable_of_no_zero {l : List Nat} (h : 0 ∉ l) : readable l = l := by
  unfold readable
  rw [List.takeWhile_eq_self_iff]
  intro x hx
  have : x ≠ 0 := fun h0 => h (h0 ▸ hx)
  simpa using this

theorem readable_forward_writes (m : Nat) (ok : Option Nat) (inp : List Nat) :
    readable (forward_writes m ok inp) = forward_writes m ok inp :=
  readable_of_no_zero (forward_writes_never_zero m ok inp)

theorem readable_initial_self (l : List Nat) : readable l <+: l :=
  List.takeWhile_prefix _

theorem readable_initial {l l' : List Nat} (h : l <+: l') : readable l <+: readable l' := by
  obtain ⟨t, rfl⟩ := h
  induction l with
  | nil => exact List.nil_prefix
  | cons a tl ih =>
    by_cases ha : a = 0
    · subst ha
      rw [readable_cons_zero]
      exact List.nil_prefix
    · rw [List.cons_append, readable_cons_pos ha, readable_cons_pos ha]
      exact (List.prefix_cons_inj a).mpr ih

theorem root_writes_initial (n fuel : Nat) :
    ∀ i ok, (root_writes n fuel i ok).1 <+: (root_loop n fuel i).1 := by
  induction fuel with
  | zero => intro i ok; exact List.nil_prefix
  | succ f ih =>
    intro i ok
    rw [root_loop_succ]
    unfold root_writes
    by_cases hin : i ≤ n
    · simp only [hin, if_true]
      cases ok with
      | none => exact (List.prefix_cons_inj i).mpr (ih (uinc i) none)
      | some k =>
        cases k with
        | zero => exact List.nil_prefix
        | succ j => exact (List.prefix_cons_inj i).mpr (ih (uinc i) (some j))
    · simp only [hin, if_false]
      exact List.prefix_refl _

theorem root_writes_running (n fuel : Nat) :
    ∀ i ok, (root_writes n fuel i ok).2 = .running → (root_writes n fuel i ok).1.length = fuel := by
  induction fuel with
  | zero => intro i ok _; rfl
  | succ f ih =>
    intro i ok h
    unfold root_writes at h ⊢
    by_cases hin : i ≤ n
    · simp only [hin, if_true] at h ⊢
      cases ok with
      | none =>
        simp only at h ⊢
        rw [List.length_cons, ih (uinc i) none h]
      | some k =>
        cases k with
        | zero => simp at h
        | succ j =>
          simp only at h ⊢
          rw [List.length_cons, ih (uinc i) (some j) h]
    · simp only [hin, if_false] at h
      cases h

theorem root_writes_never_completes (fuel : Nat) :
    ∀ i ok, i < 4294967296 → (root_writes 4294967295 fuel i ok).2 ≠ .completed := by
  induction fuel with
  | zero => intro i ok _ h; cases h
  | succ f ih =>
    intro i ok hi
    have hle : i ≤ 4294967295 := by omega
    have hu : uinc i < 4294967296 := by unfold uinc; omega
    unfold root_writes
    simp only [hle, if_true]
    cases ok with
    | none => exact ih (uinc i) none hu
    | some k =>
      cases k with
      | zero => simp
      | succ j => exact ih (uinc i) (some j) hu

theorem root_writes_not_failed (n : Nat) (hn : n < UINT_MAX) (fuel : Nat) :
    ∀ i ok, n + 1 - i < fuel → (root_writes n fuel i ok).2 ≠ .write_failed →
      root_writes n fuel i ok = (List.range' i (n + 1 - i), .completed) := by
  unfold UINT_MAX at hn
  induction fuel with
  | zero => intro i ok h; omega
  | succ f ih =>
    intro i ok hfuel hend
    unfold root_writes at hend ⊢
    by_cases hin : i ≤ n
    · have hu : uinc i = i + 1 := by unfold uinc; omega
      have hlen : n + 1 - i = (n + 1 - (i + 1)) + 1 := by omega
      simp only [hin, if_true, hu] at hend ⊢
      cases ok with
      | none =>
        simp only at hend ⊢
        rw [ih (i + 1) none (by omega) hend, hlen, List.range'_succ]
      | some k =>
        cases k with
        | zero => simp at hend
        | succ j =>
          simp only at hend ⊢
          rw [ih (i + 1) (some j) (by omega) hend, hlen, List.range'_succ]
    · have hlen : n + 1 - i = 0 := by omega
      simp only [hin, if_false, hlen]
      rfl

/-! Runs with failing writes -/

theorem pipe_written_none (n m d : Nat) (fd_in : Option (List Nat)) :
    pipe_written n m d fd_in none = new_pipe n m d fd_in := by
  cases fd_in <;> rfl

theorem run_trace_none (n fuel : Nat) :
    ∀ k m d f fd_in,
      run_trace n (fun _ => none) fuel k m d f fd_in = stage_trace n fuel m d f fd_in := by
  induction fuel with
  | zero => intro k m d f fd_in; rfl
  | succ i ih =>
    intro k m d f fd_in
    rw [run_trace, stage_trace]
    simp only [pipe_written_none]
    congr 1
    cases divisor_check n d f with
    | inl line => rfl
    | inr g =>
      simp only
      cases next_candidate d (new_pipe n m d fd_in) with
      | none => rfl
      | some pr =>
        obtain ⟨c, rest⟩ := pr
        simp only
        rw [ih]

/-- When no write fails the stages and pipes of the run are those of
`pipeline_trace`. -/
theorem pipeline_run_trace_none (n : Nat) :
    pipeline_run_trace n (fun _ => none) = pipeline_trace n :=
  run_trace_none n n 0 UINT_MAX 2 0 none

theorem run_trace_inv {n : Nat} (h2 : 2 ≤ n) (ok : Nat → Option Nat) (fuel : Nat) :
    ∀ k m d f fd_in j, StageOK n d → FactorInv n d f →
      PrefixSieved n d (readable (pipe_written n m d fd_in (ok k))) →
      Nat.count Nat.Prime d = j →
      ∀ i s, (run_trace n ok fuel k m d f fd_in)[i]? = some s →
        Nat.count Nat.Prime s.m_next = j + i ∧ StageOK n s.m_next ∧
          FactorInv n s.m_next s.factor ∧ PrefixSieved n s.m_next (readable s.fd) ∧
          ((fd_in.isSome ∨ 0 < i) → readable s.fd = s.fd) := by
  induction fuel with
  | zero =>
    intro k m d f fd_in j _ _ _ _ i s hs
    simp [run_trace] at hs
  | succ e ih =>
    intro k m d f fd_in j hst hf hsv hcount i s hs
    have hd := hst.1
    rw [run_trace] at hs
    cases i with
    | zero =>
      rw [List.getElem?_cons_zero] at hs
      injection hs with hs
      subst hs
      refine ⟨hcount, hst, hf, hsv, ?_⟩
      intro h
      rcases h with h | h
      · cases fd_in with
        | none => simp at h
        | some inp => exact readable_forward_writes m (ok k) inp
      · omega
    | succ i' =>
      rw [List.getElem?_cons_succ] at hs
      cases hdc : divisor_check n d f with
      | inl line =>
        rw [hdc] at hs
        simp at hs
      | inr g =>
        rw [hdc] at hs
        simp only at hs
        obtain ⟨-, hg⟩ := divisor_check_inr h2 hst hf hdc
        cases hnc : next_candidate d (pipe_written n m d fd_in (ok k)) with
        | none =>
          rw [hnc] at hs
          simp at hs
        | some pr =>
          obtain ⟨c, rest⟩ := pr
          rw [hnc] at hs
          simp only at hs
          obtain ⟨skipped, hsplit, hsk, hcd⟩ := next_candidate_some hnc
          obtain ⟨full, hfull, hpre⟩ := hsv
          rw [hsplit] at hpre
          obtain ⟨t, ht⟩ := hpre
          have hfull' : Sieved n d (skipped ++ c :: (readable rest ++ t)) := by
            have : skipped ++ c :: (readable rest ++ t) = full := by
              rw [← ht]; simp
            rw [this]
            exact hfull
          obtain ⟨hnp, -⟩ := candidate_next_prime hd hfull' hsk hcd
          by_cases hsq : c * c < n
          · have hb : below_sqrt c n = true := by simp [below_sqrt, hsq]
            rw [if_pos hb] at hs
            have hsv' : PrefixSieved n c
                (readable (pipe_written n d c (some rest) (ok (k + 1)))) := by
              refine ⟨_, sieved_forward hd hfull' hnp, ?_⟩
              show readable (forward_writes d (ok (k + 1)) rest) <+: _
              rw [readable_forward_writes]
              refine (forward_writes_initial d rest (ok (k + 1))).trans ?_
              rw [forward_eq_filter]
              exact List.IsPrefix.filter _ (List.prefix_append _ _)
            have hcount' : Nat.count Nat.Prime c = j + 1 := by
              rw [count_next_prime hd hnp, hcount]
            obtain ⟨h1, h3, h4, h5, h6⟩ :=
              ih (k + 1) d c g (some rest) (j + 1) ⟨hnp.1, Or.inr hsq⟩ (hg c hnp) hsv'
                hcount' i' s hs
            refine ⟨by omega, h3, h4, h5, ?_⟩
            intro _
            exact h6 (Or.inl rfl)
          · have hb : ¬ below_sqrt c n = true := by simp [below_sqrt, hsq]
            rw [if_neg hb] at hs
            simp at hs

theorem pipeline_run_trace_inv {n : Nat} (h2 : 2 ≤ n) (hn : n ≤ UINT_MAX)
    (ok : Nat → Option Nat) :
    ∀ k s, (pipeline_run_trace n ok)[k]? = some s →
      Nat.count Nat.Prime s.m_next = k ∧ StageOK n s.m_next ∧
        FactorInv n s.m_next s.factor ∧ PrefixSieved n s.m_next (readable s.fd) ∧
        (0 < k → readable s.fd = s.fd) := by
  intro k s hs
  have hst : StageOK n 2 := ⟨Nat.prime_two, Or.inl rfl⟩
  have hf : FactorInv n 2 0 := by
    refine Or.inl ⟨rfl, ?_⟩
    intro q hq hq2
    have := hq.two_le
    omega
  have hsv : PrefixSieved n 2 (readable (pipe_written n UINT_MAX 2 none (ok 0))) := by
    refine ⟨_, sieved_root n h2, ?_⟩
    rw [← readable_root_channel n h2 hn]
    exact readable_initial (root_writes_initial n n (uinc 2) (ok 0))
  obtain ⟨h1, h3, h4, h5, h6⟩ :=
    run_trace_inv h2 ok n 0 UINT_MAX 2 0 none 0 hst hf hsv count_prime_two k s hs
  refine ⟨by omega, h3, h4, h5, ?_⟩
  intro hk
  exact h6 (Or.inr hk)

theorem pipeline_run_trace_head {n : Nat} {ok : Nat → Option Nat} {s : Stage}
    (hs : (pipeline_run_trace n ok)[0]? = some s) :
    s.fd = (root_writes n n (uinc 2) (ok 0)).1 := by
  unfold pipeline_run_trace at hs
  cases n with
  | zero => simp [run_trace] at hs
  | succ k =>
    rw [run_trace, List.getElem?_cons_zero] at hs
    injection hs with hs
    rw [← hs]
    rfl

/-! Pipes of bounded capacity -/

theorem chain_range_succ (K : Nat) :
    ∀ s, List.Chain' (fun a b => b = a + 1) (List.range' s K) := by
  induction K with
  | zero => intro s; exact List.chain'_nil
  | succ j ih =>
    intro s
    rw [List.range'_succ, List.chain'_cons']
    refine ⟨?_, ih (s + 1)⟩
    intro y hy
    cases j with
    | zero => simp at hy
    | succ i =>
      rw [List.range'_succ] at hy
      simp only [List.head?_cons, Option.mem_def, Option.some.injEq] at hy
      exact hy.symm

theorem forward_reads_le (m : Nat) (inp : List Nat) :
    ∀ ok, List.Chain' (fun a b => ¬ (a % m = 0 ∧ b % m = 0)) (readable inp) →
      forward_reads m ok inp ≤ 2 * (forward_writes m ok inp).length + 2 ∧
        ((∀ b, inp.head? = some b → b = 0 ∨ b % m ≠ 0) →
          forward_reads m ok inp ≤ 2 * (forward_writes m ok inp).length + 1) := by
  induction inp with
  | nil =>
    intro ok _
    simp [forward_reads, forward_writes]
  | cons i rest ih =>
    intro ok hch
    by_cases h0 : i = 0
    · subst h0
      simp [forward_reads, forward_writes]
    · rw [readable_cons_pos h0] at hch
      have hch' : List.Chain' (fun a b => ¬ (a % m = 0 ∧ b % m = 0)) (readable rest) :=
        (List.chain'_cons'.mp hch).2
      by_cases hm : i % m = 0
      · have hrest : ∀ b, rest.head? = some b → b = 0 ∨ b % m ≠ 0 := by
          intro b hb
          by_cases hb0 : b = 0
          · exact Or.inl hb0
          · right
            cases rest with
            | nil => simp at hb
            | cons b' r =>
              simp only [List.head?_cons, Option.some.injEq] at hb
              subst hb
              rw [readable_cons_pos hb0] at hch
              have := (List.chain'_cons.mp hch).1
              intro hbm
              exact this ⟨hm, hbm⟩
        have hB := (ih ok hch').2 hrest
        have hr : forward_reads m ok (i :: rest) = 1 + forward_reads m ok rest := by
          simp [forward_reads, h0, hm]
        have hw : forward_writes m ok (i :: rest) = forward_writes m ok rest := by
          simp [forward_writes, h0, hm]
        rw [hr, hw]
        refine ⟨by omega, ?_⟩
        intro hhead
        have := hhead i rfl
        rcases this with h | h
        · exact absurd h h0
        · exact absurd hm h
      · cases ok with
        | none =>
          have hA := (ih none hch').1
          have hr : forward_reads m none (i :: rest) = 1 + forward_reads m none rest := by
            simp [forward_reads, h0, hm]
          have hw : forward_writes m none (i :: rest) = i :: forward_writes m none rest := by
            simp [forward_writes, h0, hm]
          rw [hr, hw, List.length_cons]
          exact ⟨by omega, fun _ => by omega⟩
        | some k =>
          cases k with
          | zero => simp [forward_reads, forward_writes, h0, hm]
          | succ j =>
            have hA := (ih (some j) hch').1
            have hr : forward_reads m (some (j + 1)) (i :: rest) =
                1 + forward_reads m (some j) rest := by
              simp [forward_reads, h0, hm]
            have hw : forward_writes m (some (j + 1)) (i :: rest) =
                i :: forward_writes m (some j) rest := by
              simp [forward_writes, h0, hm]
            rw [hr, hw, List.length_cons]
            exact ⟨by omega, fun _ => by omega⟩

theorem forward_two_steps (inp : List Nat) :
    ∀ ok, List.Chain' (fun a b => b = a + 1) (readable inp) →
      List.Chain' (fun a b => b = a + 2) (forward_writes 2 ok inp) ∧
        (∀ i o, inp.head? = some i → (forward_writes 2 ok inp).head? = some o →
          (i % 2 = 1 → o = i) ∧ (i % 2 = 0 → o = i + 1)) := by
  induction inp with
  | nil =>
    intro ok _
    simp [forward_writes]
  | cons i rest ih =>
    intro ok hch
    by_cases h0 : i = 0
    · subst h0
      simp [forward_writes]
    · rw [readable_cons_pos h0] at hch
      have hch' : List.Chain' (fun a b => b = a + 1) (readable rest) :=
        (List.chain'_cons'.mp hch).2
      have hnext : ∀ b, rest.head? = some b → b ≠ 0 → b = i + 1 := by
        intro b hb hb0
        cases rest with
        | nil => simp at hb
        | cons b' r =>
          simp only [List.head?_cons, Option.some.injEq] at hb
          subst hb
          rw [readable_cons_pos hb0] at hch
          exact (List.chain'_cons.mp hch).1
      have hzero : ∀ ok' r, (forward_writes 2 ok' (0 :: r)).head? = none := by
        intro ok' r
        simp [forward_writes]
      have hhead : ∀ ok' o, (forward_writes 2 ok' rest).head? = some o →
          (i % 2 = 1 → o = i + 2) ∧ (i % 2 = 0 → o = i + 1) := by
        intro ok' o ho
        cases rest with
        | nil => simp [forward_writes] at ho
        | cons b r =>
          by_cases hb0 : b = 0
          · subst hb0
            rw [hzero] at ho
            cases ho
          · have hb := hnext b rfl hb0
            have := (ih ok' hch').2 b o rfl ho
            constructor
            · intro hi
              have := this.2 (by omega)
              omega
            · intro hi
              have := this.1 (by omega)
              omega
      by_cases hm : i % 2 = 0
      · have hw : forward_writes 2 ok (i :: rest) = forward_writes 2 ok rest := by
          simp [forward_writes, h0, hm]
        rw [hw]
        refine ⟨(ih ok hch').1, ?_⟩
        intro i' o hi' ho
        simp only [List.head?_cons, Option.some.injEq] at hi'
        subst hi'
        have := hhead ok o ho
        exact ⟨fun h => by omega, this.2⟩
      · cases ok with
        | none =>
          have hw : forward_writes 2 none (i :: rest) = i :: forward_writes 2 none rest := by
            simp [forward_writes, h0, hm]
          rw [hw]
          refine ⟨?_, ?_⟩
          · rw [List.chain'_cons']
            exact ⟨fun y hy => (hhead none y hy).1 (by omega), (ih none hch').1⟩
          · intro i' o hi' ho
            simp only [List.head?_cons, Option.some.injEq] at hi' ho
            subst hi' ho
            exact ⟨fun _ => rfl, fun h => by omega⟩
        | some k =>
          cases k with
          | zero => simp [forward_writes, h0, hm]
          | succ j =>
            have hw : forward_writes 2 (some (j + 1)) (i :: rest) =
                i :: forward_writes 2 (some j) rest := by
              simp [forward_writes, h0, hm]
            rw [hw]
            refine ⟨?_, ?_⟩
            · rw [List.chain'_cons']
              exact ⟨fun y hy => (hhead (some j) y hy).1 (by omega), (ih (some j) hch').1⟩
            · intro i' o hi' ho
              simp only [List.head?_cons, Option.some.injEq] at hi' ho
              subst hi' ho
              exact ⟨fun _ => rfl, fun h => by omega⟩

theorem run_trace_succ (n : Nat) (ok : Nat → Option Nat) (fuel k m m_next factor : Nat)
    (fd_in : Option (List Nat)) :
    run_trace n ok (fuel + 1) k m m_next factor fd_in =
      ⟨m_next, factor, pipe_written n m m_next fd_in (ok k)⟩ ::
        match divisor_check n m_next factor with
        | .inl _ => []
        | .inr factor =>
          match next_candidate m_next (pipe_written n m m_next fd_in (ok k)) with
          | none => []
          | some (factor2, rest) =>
            if below_sqrt factor2 n then
              run_trace n ok fuel (k + 1) m_next factor2 factor (some rest)
            else [] := by
  rfl

theorem forward_writes_nil (m : Nat) (ok : Option Nat) : forward_writes m ok [] = [] := by
  cases ok <;> rfl

theorem no_adjacent_of_succ {l : List Nat} (h : List.Chain' (fun a b => b = a + 1) l) :
    List.Chain' (fun a b => ¬ (a % 2 = 0 ∧ b % 2 = 0)) l :=
  h.imp (fun {a b} hab => by omega)

theorem no_adjacent_of_step {l : List Nat} (h : List.Chain' (fun a b => b = a + 2) l) :
    List.Chain' (fun a b => ¬ (a % 3 = 0 ∧ b % 3 = 0)) l :=
  h.imp (fun {a b} hab => by omega)

theorem stage_reads_exit (n : Nat) (s : Stage) (o : Option Nat) (l : Line)
    (h : divisor_check n s.m_next s.factor = .inl l) : stage_reads n s o = 0 := by
  unfold stage_reads
  rw [h]

theorem stage_reads_forward (n : Nat) (s : Stage) (o : Option Nat) (g c : Nat)
    (rest : List Nat) (hd : divisor_check n s.m_next s.factor = .inr g)
    (hc : next_candidate s.m_next s.fd = some (c, rest)) (hb : below_sqrt c n = true) :
    stage_reads n s o = candidate_reads s.m_next s.fd + forward_reads s.m_next o rest := by
  unfold stage_reads
  rw [hd]
  simp only [hc, hb, if_true]

theorem max_trace_first (ok : Nat → Option Nat) (R0 : List Nat)
    (h : (root_writes 4294967295 4294967295 (uinc 2) (ok 0)).1 = 3 :: R0) :
    pipeline_run_trace 4294967295 ok =
      ⟨2, 0, 3 :: R0⟩ :: ⟨3, 0, forward_writes 2 (ok 1) R0⟩ ::
        match next_candidate 3 (forward_writes 2 (ok 1) R0) with
        | none => []
        | some (factor2, rest) =>
          if below_sqrt factor2 4294967295 then
            run_trace 4294967295 ok 4294967293 2 3 factor2 3 (some rest)
          else [] := by
  have h0 : pipe_written 4294967295 UINT_MAX 2 none (ok 0) = 3 :: R0 := h
  have hd0 : divisor_check 4294967295 2 0 = .inr 0 := by decide
  have hd1 : divisor_check 4294967295 3 0 = .inr 3 := by decide
  have hc0 : next_candidate 2 (3 :: R0) = some (3, R0) := by simp [next_candidate]
  have hb0 : below_sqrt 3 4294967295 = true := by decide
  have h1 : pipe_written 4294967295 2 3 (some R0) (ok 1) = forward_writes 2 (ok 1) R0 := rfl
  show run_trace 4294967295 ok (4294967294 + 1) 0 UINT_MAX 2 0 none = _
  rw [run_trace_succ, h0, hd0]
  simp only [hc0, hb0, if_true]
  show _ :: run_trace 4294967295 ok (4294967293 + 1) (0 + 1) 2 3 0 (some R0) = _
  rw [run_trace_succ, h1, hd1]

theorem max_trace_second (ok : Nat → Option Nat) (R0 R1 : List Nat)
    (h : (root_writes 4294967295 4294967295 (uinc 2) (ok 0)).1 = 3 :: R0)
    (h1 : forward_writes 2 (ok 1) R0 = 5 :: R1) :
    (pipeline_run_trace 4294967295 ok)[2]? = some ⟨5, 3, forward_writes 3 (ok 2) R1⟩ := by
  have hc1 : next_candidate 3 (5 :: R1) = some (5, R1) := by simp [next_candidate]
  have hb1 : below_sqrt 5 4294967295 = true := by decide
  rw [max_trace_first ok R0 h, h1]
  simp only [hc1, hb1, if_true]
  show (_ :: _ :: run_trace 4294967295 ok (4294967292 + 1) 2 3 5 3 (some R1))[2]? = _
  rw [run_trace_succ]
  rfl

/-- The run on `UINT_MAX = 3 * 5 * 17 * 257 * 65537` with pipes of capacity `cap`:
the stage with divisor `5` leaves in its divisor check without reading, so its
pipe takes at most `cap` values, the pipe before it at most `3 * cap + 3`, and
the pipe of the controller at most `7 * cap + 9`. -/
theorem max_root_content_short (cap : Nat) (ok : Nat → Option Nat)
    (hadm : Admissible 4294967295 cap ok) :
    (root_writes 4294967295 4294967295 (uinc 2) (ok 0)).1.length ≤ 7 * cap + 9 := by
  have hpre := root_writes_initial 4294967295 4294967295 (uinc 2) (ok 0)
  have hI : (root_loop 4294967295 4294967295 (uinc 2)).1 =
      3 :: 4 :: (root_loop 4294967295 4294967293 5).1 := by
    show (root_loop 4294967295 (4294967293 + 1 + 1) 3).1 = _
    rw [root_loop_succ, if_pos (by decide)]
    show 3 :: (root_loop 4294967295 (4294967293 + 1) 4).1 = _
    rw [root_loop_succ, if_pos (by decide)]
    rfl
  have hI1 : readable (4 :: (root_loop 4294967295 4294967293 5).1) =
      List.range' 4 4294967292 := by
    have h := readable_root_loop 4294967295 (Nat.le_refl _) 4294967294 4 (by decide)
    have he : (root_loop 4294967295 4294967294 4).1 =
        4 :: (root_loop 4294967295 4294967293 5).1 := by
      show (root_loop 4294967295 (4294967293 + 1) 4).1 = _
      rw [root_loop_succ, if_pos (by decide)]
      rfl
    rw [he] at h
    rw [h]
    rfl
  rw [hI] at hpre
  cases hC0 : (root_writes 4294967295 4294967295 (uinc 2) (ok 0)).1 with
  | nil => simp
  | cons a R0 =>
    rw [hC0] at hpre
    obtain ⟨ha, hR0⟩ := List.cons_prefix_cons.mp hpre
    subst ha
    have hchain : List.Chain' (fun a b => b = a + 1) (readable R0) := by
      have hp := readable_initial hR0
      rw [hI1] at hp
      exact List.Chain'.prefix (chain_range_succ _ 4) hp
    have hT := max_trace_first ok R0 hC0
    have hs0 : (pipeline_run_trace 4294967295 ok)[0]? = some ⟨2, 0, 3 :: R0⟩ := by
      rw [hT]; rfl
    have hs1 : (pipeline_run_trace 4294967295 ok)[1]? =
        some ⟨3, 0, forward_writes 2 (ok 1) R0⟩ := by
      rw [hT, List.getElem?_cons_succ, List.getElem?_cons_zero]
    have hr0 : stage_reads 4294967295 ⟨2, 0, 3 :: R0⟩ (ok 1) =
        1 + forward_reads 2 (ok 1) R0 := by
      have hd0 : divisor_check 4294967295 2 0 = .inr 0 := by decide
      have hc0 : next_candidate 2 (3 :: R0) = some (3, R0) := by simp [next_candidate]
      have hcr : candidate_reads 2 (3 :: R0) = 1 := by simp [candidate_reads]
      have hb0 : below_sqrt 3 4294967295 = true := by decide
      rw [stage_reads_forward _ ⟨2, 0, 3 :: R0⟩ (ok 1) 0 3 R0 hd0 hc0 hb0]
      exact congrArg (· + forward_reads 2 (ok 1) R0) hcr
    have hcap0 : (3 :: R0).length ≤ stage_reads 4294967295 ⟨2, 0, 3 :: R0⟩ (ok 1) + cap :=
      hadm 0 _ hs0
    rw [hr0] at hcap0
    have hcap1 : (forward_writes 2 (ok 1) R0).length ≤
        stage_reads 4294967295 ⟨3, 0, forward_writes 2 (ok 1) R0⟩ (ok 2) + cap :=
      hadm 1 _ hs1
    have hfr0 := (forward_reads_le 2 R0 (ok 1) (no_adjacent_of_succ hchain)).1
    have hsteps := forward_two_steps R0 (ok 1) hchain
    simp only [List.length_cons] at hcap0 ⊢
    cases hC1 : forward_writes 2 (ok 1) R0 with
    | nil =>
      rw [hC1] at hfr0
      simp only [List.length_nil] at hfr0
      omega
    | cons c R1 =>
      have hc : c = 5 := by
        cases R0 with
        | nil => rw [forward_writes_nil] at hC1; cases hC1
        | cons b R0' =>
          obtain ⟨hb, -⟩ := List.cons_prefix_cons.mp hR0
          subst hb
          have := (hsteps.2 4 c rfl (by rw [hC1]; rfl)).2 (by decide)
          omega
      subst hc
      rw [hC1] at hcap1 hfr0 hsteps
      have hs2 := max_trace_second ok R0 R1 hC0 hC1
      have hcap2 : (forward_writes 3 (ok 2) R1).length ≤
          stage_reads 4294967295 ⟨5, 3, forward_writes 3 (ok 2) R1⟩ (ok 3) + cap :=
        hadm 2 _ hs2
      have hd2 : divisor_check 4294967295 5 3 = .inl (.notProduct 4294967295) := by decide
      have hr2 : stage_reads 4294967295 ⟨5, 3, forward_writes 3 (ok 2) R1⟩ (ok 3) = 0 :=
        stage_reads_exit _ ⟨5, 3, forward_writes 3 (ok 2) R1⟩ (ok 3) _ hd2
      rw [hr2] at hcap2
      have hr1 : stage_reads 4294967295 ⟨3, 0, 5 :: R1⟩ (ok 2) =
          1 + forward_reads 3 (ok 2) R1 := by
        have hd1 : divisor_check 4294967295 3 0 = .inr 3 := by decide
        have hc1 : next_candidate 3 (5 :: R1) = some (5, R1) := by simp [next_candidate]
        have hcr : candidate_reads 3 (5 :: R1) = 1 := by simp [candidate_reads]
        have hb1 : below_sqrt 5 4294967295 = true := by decide
        rw [stage_reads_forward _ ⟨3, 0, 5 :: R1⟩ (ok 2) 3 5 R1 hd1 hc1 hb1]
        exact congrArg (· + forward_reads 3 (ok 2) R1) hcr
      rw [hr1] at hcap1
      have hz : 0 ∉ R1 := by
        intro hmem
        have := forward_writes_never_zero 2 (ok 1) R0
        rw [hC1] at this
        exact this (List.mem_cons_of_mem _ hmem)
      have hchain1 : List.Chain' (fun a b => ¬ (a % 3 = 0 ∧ b % 3 = 0)) (readable R1) := by
        rw [readable_of_no_zero hz]
        exact no_adjacent_of_step (List.chain'_cons'.mp hsteps.1).2
      have hfr1 := (forward_reads_le 3 R1 (ok 2) hchain1).1
      simp only [List.length_cons] at hcap1 hfr0
      omega

/-- The controller of a run with pipes of capacity at most `2 ^ 29` values never
gets beyond `n`: what it writes is an initial segment of `3, 4, ..., n`. -/
theorem root_content_initial {n : Nat} (h2 : 2 ≤ n) (hn : n ≤ UINT_MAX) (cap : Nat)
    (hcap : cap ≤ 536870912) (ok : Nat → Option Nat) (hadm : Admissible n cap ok) :
    (root_writes n n (uinc 2) (ok 0)).1 <+: List.range' 3 (n - 2) := by
  have hpre := root_writes_initial n n (uinc 2) (ok 0)
  have hread := readable_root_channel n h2 hn
  rcases List.prefix_or_prefix_of_prefix hpre (readable_initial_self _) with h | h
  · rw [hread] at h
    exact h
  · rw [hread] at h
    have hlen := h.length_le
    rw [List.length_range'] at hlen
    by_cases hmax : n = 4294967295
    · subst hmax
      have := max_root_content_short cap ok hadm
      omega
    · have hlt : n < UINT_MAX := by
        unfold UINT_MAX at hn ⊢
        omega
      have hu : uinc 2 = 3 := rfl
      rw [hu, root_loop_ends n hlt n 3 (by omega)] at hpre
      have he : n + 1 - 3 = n - 2 := by omega
      rw [he] at hpre
      exact hpre

/-- On `UINT_MAX` the loop of the controller is always left by a failed write. -/
theorem max_root_write_fails (cap : Nat) (hcap : cap ≤ 536870912) (ok : Nat → Option Nat)
    (hadm : Admissible 4294967295 cap ok) :
    (root_writes 4294967295 4294967295 (uinc 2) (ok 0)).2 = .write_failed := by
  have hshort := max_root_content_short cap ok hadm
  have hnc := root_writes_never_completes 4294967295 (uinc 2) (ok 0) (by decide)
  have hrun := root_writes_running 4294967295 4294967295 (uinc 2) (ok 0)
  cases hend : (root_writes 4294967295 4294967295 (uinc 2) (ok 0)).2 with
  | completed => exact absurd hend hnc
  | write_failed => rfl
  | running =>
    have := hrun hend
    omega

theorem root_writes_end {n : Nat} (h2 : 2 ≤ n) (hn : n ≤ UINT_MAX) (cap : Nat)
    (hcap : cap ≤ 536870912) (ok : Nat → Option Nat) (hadm : Admissible n cap ok)
    (hend : (root_writes n n (uinc 2) (ok 0)).2 ≠ .write_failed) :
    root_writes n n (uinc 2) (ok 0) = (List.range' 3 (n - 2), .completed) := by
  by_cases hmax : n = 4294967295
  · subst hmax
    exact absurd (max_root_write_fails cap hcap ok hadm) hend
  · have hlt : n < UINT_MAX := by
      unfold UINT_MAX at hn ⊢
      omega
    have hu : uinc 2 = 3 := rfl
    rw [hu] at hend ⊢
    rw [root_writes_not_failed n hlt n 3 (ok 0) (by omega) hend]
    have he : n + 1 - 3 = n - 2 := by omega
    rw [he]

theorem trace_content {n : Nat} (h2 : 2 ≤ n) (hn : n ≤ UINT_MAX) (cap : Nat)
    (hcap : cap ≤ 536870912) (ok : Nat → Option Nat) (hadm : Admissible n cap ok)
    (k : Nat) (s : Stage) (hs : (pipeline_run_trace n ok)[k]? = some s) :
    readable s.fd = s.fd ∧ PrefixSieved n s.m_next s.fd := by
  obtain ⟨-, -, -, hpre, hrd⟩ := pipeline_run_trace_inv h2 hn ok k s hs
  have hread : readable s.fd = s.fd := by
    cases k with
    | zero =>
      rw [pipeline_run_trace_head hs]
      apply readable_of_no_zero
      intro h0
      have := (root_content_initial h2 hn cap hcap ok hadm).subset h0
      rw [List.mem_range'_1] at this
      omega
    | succ j => exact hrd (Nat.succ_pos j)
  rw [hread] at hpre
  exact ⟨hread, hpre⟩

theorem prefixSieved_lower {n d : Nat} {vals : List Nat} (h : PrefixSieved n d vals) :
    ∀ x ∈ vals, d < x ∧ x ≤ n := by
  obtain ⟨full, hsv, hpre⟩ := h
  intro x hx
  have := (hsv.2 x).mp (hpre.subset hx)
  exact ⟨this.1, this.2.1⟩

/-- The run on `35` in which no write fails fits pipes of 16384 values. -/
theorem run_35_admissible : Admissible 35 16384 (fun _ => none) := by
  intro k s hs
  rw [pipeline_run_trace_none, pipeline_trace_35] at hs
  rcases k with _ | _ | _ | k
  · simp only [List.getElem?_cons_zero, Option.some.injEq] at hs
    subst hs
    decide
  · simp only [List.getElem?_cons_succ, List.getElem?_cons_zero, Option.some.injEq] at hs
    subst hs
    decide
  · simp only [List.getElem?_cons_succ, List.getElem?_cons_zero, Option.some.injEq] at hs
    subst hs
    decide
  · simp at hs

theorem root_writes_budget (n : Nat) (hn : n ≤ UINT_MAX) (j : Nat) :
    ∀ fuel i, j < fuel → i + j ≤ n →
      root_writes n fuel i (some j) = (List.range' i j, .write_failed) := by
  unfold UINT_MAX at hn
  induction j with
  | zero =>
    intro fuel i hf hi
    cases fuel with
    | zero => omega
    | succ f =>
      unfold root_writes
      rw [if_pos (by omega)]
      rfl
  | succ j ih =>
    intro fuel i hf hi
    cases fuel with
    | zero => omega
    | succ f =>
      have hu : uinc i = i + 1 := by unfold uinc; omega
      unfold root_writes
      rw [if_pos (by omega)]
      simp only [hu]
      rw [ih f (i + 1) (by omega) (by omega), List.range'_succ]

/-- The run `max_run` on `UINT_MAX = 3 * 5 * 17 * 257 * 65537`: three stages, the
last of which finds a second divisor and leaves without reading. -/
theorem max_run_trace :
    pipeline_run_trace 4294967295 max_run =
      [⟨2, 0, List.range' 3 20⟩, ⟨3, 0, [5, 7, 9, 11, 13]⟩, ⟨5, 3, []⟩] := by
  have hC0 : (root_writes 4294967295 4294967295 (uinc 2) (max_run 0)).1 =
      3 :: List.range' 4 19 := by
    have hu : uinc 2 = 3 := rfl
    have ho : max_run 0 = some 20 := rfl
    rw [hu, ho, root_writes_budget 4294967295 (Nat.le_refl _) 20 4294967295 3
      (by decide) (by decide)]
    rfl
  have hd2 : divisor_check 4294967295 5 3 = .inl (.notProduct 4294967295) := by decide
  have hb1 : below_sqrt 5 4294967295 = true := by decide
  have hw : forward_writes 2 (max_run 1) (List.range' 4 19) = [5, 7, 9, 11, 13] := by
    decide
  have hc : next_candidate 3 [5, 7, 9, 11, 13] = some (5, [7, 9, 11, 13]) := by decide
  rw [max_trace_first _ _ hC0, hw]
  simp only [hc, hb1, if_true]
  show _ :: _ :: run_trace 4294967295 _ (4294967292 + 1) 2 3 5 3 (some [7, 9, 11, 13]) = _
  rw [run_trace_succ, hd2]
  rfl

/-- The run `max_run` fits pipes of 16384 values. -/
theorem max_run_admissible : Admissible 4294967295 16384 max_run := by
  have hd0 : divisor_check 4294967295 2 0 = .inr 0 := by decide
  have hd1 : divisor_check 4294967295 3 0 = .inr 3 := by decide
  have hd2 : divisor_check 4294967295 5 3 = .inl (.notProduct 4294967295) := by decide
  have hb0 : below_sqrt 3 4294967295 = true := by decide
  have hb1 : below_sqrt 5 4294967295 = true := by decide
  intro k s hs
  rw [max_run_trace] at hs
  rcases k with _ | _ | _ | k
  · simp only [List.getElem?_cons_zero, Option.some.injEq] at hs
    subst hs
    rw [stage_reads_forward _ ⟨2, 0, List.range' 3 20⟩ _ 0 3 (List.range' 4 19) hd0
      (by decide) hb0]
    decide
  · simp only [List.getElem?_cons_succ, List.getElem?_cons_zero, Option.some.injEq] at hs
    subst hs
    rw [stage_reads_forward _ ⟨3, 0, [5, 7, 9, 11, 13]⟩ _ 3 5 [7, 9, 11, 13] hd1
      (by decide) hb1]
    decide
  · simp only [List.getElem?_cons_succ, List.getElem?_cons_zero, Option.some.injEq] at hs
    subst hs
    rw [stage_reads_exit _ ⟨5, 3, []⟩ _ _ hd2]
    decide
  · simp at hs

/-! The properties about the content of the pipes -/

theorem pipeline_run_trace_first {n : Nat} (h2 : 2 ≤ n) (ok : Nat → Option Nat) :
    (pipeline_run_trace n ok)[0]? = some ⟨2, 0, (root_writes n n (uinc 2) (ok 0)).1⟩ := by
  unfold pipeline_run_trace
  cases n with
  | zero => omega
  | succ k =>
    rw [run_trace_succ, List.getElem?_cons_zero]
    rfl

/-- C8: for `n` in `[2, UINT_MAX]`, in a run with pipes of at most `2 ^ 29`
values, the pipe of the first stage (divisor `2`) holds what the loop of the
controller writes, which is an initial segment of `3, 4, ..., n`; when none of
its writes fails (the reader never closes early) the loop writes exactly
`3, 4, ..., n` in increasing order and is left through its condition; for
`n = 2` it writes nothing. -/
theorem C8_root_sequence (n : Nat) (h2 : 2 ≤ n) (hn : n ≤ UINT_MAX) (cap : Nat)
    (hcap : cap ≤ 536870912) (ok : Nat → Option Nat) (hadm : Admissible n cap ok) :
    (pipeline_run_trace n ok)[0]? = some ⟨2, 0, (root_writes n n (uinc 2) (ok 0)).1⟩ ∧
    (root_writes n n (uinc 2) (ok 0)).1 <+: List.range' 3 (n - 2) ∧
    ((root_writes n n (uinc 2) (ok 0)).2 ≠ .write_failed →
      root_writes n n (uinc 2) (ok 0) = (List.range' 3 (n - 2), .completed)) ∧
    (n = 2 → (root_writes n n (uinc 2) (ok 0)).1 = []) := by
  have hpre := root_content_initial h2 hn cap hcap ok hadm
  refine ⟨pipeline_run_trace_first h2 ok, hpre, root_writes_end h2 hn cap hcap ok hadm, ?_⟩
  intro h
  subst h
  exact List.prefix_nil.mp hpre

/-- C8 at `n = 35`, no write failing: the controller writes `3, 4, ..., 35` and
its loop ends. -/
theorem C8_witness_35 :
    (2 ≤ 35 ∧ 35 ≤ UINT_MAX ∧ 16384 ≤ 536870912 ∧ Admissible 35 16384 (fun _ => none) ∧
      (root_writes 35 35 (uinc 2) none).2 ≠ .write_failed) ∧
    root_writes 35 35 (uinc 2) none = (List.range' 3 33, .completed) :=
  ⟨⟨by decide, by decide, by decide, run_35_admissible, by decide⟩,
    (C8_root_sequence 35 (by decide) (by decide) 16384 (by decide) (fun _ => none)
      run_35_admissible).2.2.1 (by decide)⟩

/-- C14: for `n` in `[2, UINT_MAX]`, in a run with pipes of at most `2 ^ 29`
values, every value in every pipe is at least `3`, so no pipe holds a `0` and a
reader takes the whole content before the end of the stream; the controller
writes no `0`, and a forwarding stage writes no `0` whatever it reads. -/
theorem C14_no_zero_written (n : Nat) (h2 : 2 ≤ n) (hn : n ≤ UINT_MAX) (cap : Nat)
    (hcap : cap ≤ 536870912) (ok : Nat → Option Nat) (hadm : Admissible n cap ok) :
    (∀ (k : Nat) (s : Stage), (pipeline_run_trace n ok)[k]? = some s →
      (∀ x ∈ s.fd, 3 ≤ x) ∧ readable s.fd = s.fd) ∧
    0 ∉ (root_writes n n (uinc 2) (ok 0)).1 ∧
    (∀ m o inp, 0 ∉ forward_writes m o inp) := by
  refine ⟨?_, ?_, fun m o inp => forward_writes_never_zero m o inp⟩
  · intro k s hs
    obtain ⟨hread, hpre⟩ := trace_content h2 hn cap hcap ok hadm k s hs
    obtain ⟨-, hst, -, -, -⟩ := pipeline_run_trace_inv h2 hn ok k s hs
    refine ⟨?_, hread⟩
    intro x hx
    have := (prefixSieved_lower hpre x hx).1
    have := hst.1.two_le
    omega
  · intro h0
    have := (root_content_initial h2 hn cap hcap ok hadm).subset h0
    rw [List.mem_range'_1] at this
    omega

/-- C14 at `n = UINT_MAX`, in the run `max_run`: the controller is stopped at its
twenty-first write, having written `3, ..., 22`, and the pipe of the stage with
divisor `3` holds `5, 7, 9, 11, 13`. -/
theorem C14_witness_max :
    (2 ≤ 4294967295 ∧ 4294967295 ≤ UINT_MAX ∧ 16384 ≤ 536870912 ∧
      Admissible 4294967295 16384 max_run ∧
      (pipeline_run_trace 4294967295 max_run)[1]? = some ⟨3, 0, [5, 7, 9, 11, 13]⟩) ∧
    ((∀ x ∈ ([5, 7, 9, 11, 13] : List Nat), 3 ≤ x) ∧
      readable [5, 7, 9, 11, 13] = [5, 7, 9, 11, 13]) ∧
    0 ∉ (root_writes 4294967295 4294967295 (uinc 2) (max_run 0)).1 :=
  ⟨⟨by decide, by decide, by decide, max_run_admissible, by rw [max_run_trace]; rfl⟩,
    (C14_no_zero_written 4294967295 (by decide) (by decide) 16384 (by decide) max_run
      max_run_admissible).1 1 ⟨3, 0, [5, 7, 9, 11, 13]⟩ (by rw [max_run_trace]; rfl),
    (C14_no_zero_written 4294967295 (by decide) (by decide) 16384 (by decide) max_run
      max_run_admissible).2.1⟩

end Pfact
